import Mathlib

/-!
# Site map builder (`main.go`): shallow embedding and verified properties

The Go program crawls a site level by level (`TraversWebPage`), asking
`getLinks` for the same-origin links of every page of the current frontier,
and merges what it finds into a duplicate-free list (`updateSet`).

Modelling decisions.

* A Go `string` is a Lean `String`; `strings.HasPrefix` compares the
  character lists.  (Go compares bytes; on well-formed UTF-8 the two agree.)
* A Go slice is a `List`; `append(s, x)` is `s ++ [x]`, `append(s, t...)` is
  `s ++ t`.  A `for _, x := range xs` loop that grows an accumulator is a
  `List.foldl` (or an explicit recursion when the body can panic).
* The external collaborators are parameters: `httpGet` stands for `http.Get`
  (it yields the effective, post-redirect scheme and host and the body, or an
  error) and `htmlParse` stands for `html.Parse`.
* `panic(err)` in `getLinks` is the result `none`.
* `TraversWebPage` receives the page fetcher as its first argument, so the
  walker can be studied for an arbitrary (deterministic) fetcher; the program
  itself runs `TraversWebPage (getLinks httpGet htmlParse)`.
* The walker state carries one ghost field, `fetched`, the URLs handed to
  `getLinks` so far, in call order.  No source variable depends on it.
* `depth` is an `Int`.  The loop `for i := 0; i <= depth; i++` runs
  `depth + 1` rounds when `depth ≥ 0` and none otherwise.  (For the single
  value `depth = MaxInt` the Go counter would wrap around after `2^63`
  rounds; that run is outside the model.)  `forLoop` is the same loop with
  its counter, proved equal to the round count.
* An `*html.Node` is a tree value, so two nodes at different places may be
  equal; where the place matters (`dfs`), a node is named by its path from
  the root (`Position`).
* `html.Parse` gives children to element nodes (and to the document root)
  only; `onlyElementsBranch` states that shape where `text` needs it.
-/

namespace SiteMap

/-! ## Strings -/

/-- Go `strings.HasPrefix(s, prefix)`. -/
def HasPrefix (s pref : String) : Bool :=
  pref.data.isPrefixOf s.data

/-- Go `unicode.IsSpace`: the Latin-1 spaces and the code points with the
Unicode White_Space property. -/
def isSpace (c : Char) : Bool :=
  let n := c.toNat
  n == 0x20 || (0x09 ≤ n && n ≤ 0x0D) || n == 0x85 || n == 0xA0 || n == 0x1680 ||
  (0x2000 ≤ n && n ≤ 0x200A) || n == 0x2028 || n == 0x2029 || n == 0x202F ||
  n == 0x205F || n == 0x3000

/-- The scanning loop of Go `strings.Fields`: `cur` is the field being read. -/
def fieldsLoop : List Char → List Char → List String
  | [], cur => if cur.isEmpty then [] else [String.mk cur]
  | c :: cs, cur =>
    if isSpace c then
      (if cur.isEmpty then fieldsLoop cs [] else String.mk cur :: fieldsLoop cs [])
    else fieldsLoop cs (cur ++ [c])

/-- Go `strings.Fields(s)`: the maximal runs of non-space characters. -/
def Fields (s : String) : List String :=
  fieldsLoop s.data []

/-- Go `strings.Join(elems, sep)`. -/
def Join : List String → String → String
  | [], _ => ""
  | [a], _ => a
  | a :: b :: rest, sep => a ++ sep ++ Join (b :: rest) sep

/-! ## The document tree of `golang.org/x/net/html` -/

/-- The `html.NodeType` constants. -/
inductive NodeType where
  | ErrorNode
  | TextNode
  | DocumentNode
  | ElementNode
  | CommentNode
  | DoctypeNode
  | RawNode
  deriving DecidableEq, Repr

/-- An `html.Attribute`. -/
structure Attribute where
  Namespace : String
  Key : String
  Val : String
  deriving DecidableEq, Repr

/-- An `html.Node`: its type, its data (tag name or text), its attributes
and its children (the `FirstChild` / `NextSibling` chain, in order). -/
inductive Node where
  | mk (nodeType : NodeType) (Data : String) (Attr : List Attribute)
      (children : List Node)

/-- Attributes of a node (`n.Attr`). -/
def Node.Attr : Node → List Attribute
  | .mk _ _ attr _ => attr

/-- A Link is a link in a html document. -/
structure Link where
  Href : String
  Text : String
  deriving DecidableEq, Repr

/-! ## Link extraction -/

mutual
/-- Source `text`: the flattened, whitespace-normalised text below a node. -/
def text : Node → String
  | .mk ty data _ cs =>
    if ty = NodeType.TextNode then data
    else if ty ≠ NodeType.ElementNode then ""
    else Join (Fields (textLoop cs "")) " "
/-- The loop of `text` over the children: `ret += text(c) + " "`. -/
def textLoop : List Node → String → String
  | [], ret => ret
  | c :: rest, ret => textLoop rest (ret ++ (text c ++ " "))
end

mutual
/-- Source `dfs`: the outermost `a` elements, in document order. -/
def dfs : Node → List Node
  | .mk ty data attr cs =>
    if ty = NodeType.ElementNode ∧ data = "a" then [Node.mk ty data attr cs]
    else dfsLoop cs []
/-- The loop of `dfs` over the children: `ret = append(ret, dfs(c)...)`. -/
def dfsLoop : List Node → List Node → List Node
  | [], ret => ret
  | c :: rest, ret => dfsLoop rest (ret ++ dfs c)
end

/-- Source `buildLink`: the first `href` attribute (empty when there is
none) and the text of the node. -/
def buildLink (n : Node) : Link :=
  { Href := match n.Attr.find? (fun attr => attr.Key == "href") with
            | some attr => attr.Val
            | none => ""
    Text := text n }

/-- Source `Parse`: parse the document, collect the anchors, build the links. -/
def Parse (htmlParse : String → Except String Node) (r : String) :
    Except String (List Link) :=
  match htmlParse r with
  | .error err => .error err
  | .ok doc => .ok ((dfs doc).foldl (fun links node => links ++ [buildLink node]) [])

/-! ## Normalising and filtering -/

/-- Source `filter`. -/
def filter (keepFunc : String → Bool) (links : List String) : List String :=
  links.foldl (fun ret link => if keepFunc link then ret ++ [link] else ret) []

/-- Source `withPrefix`. -/
def withPrefix (pref : String) : String → Bool :=
  fun link => HasPrefix link pref

/-- The `switch` of `getHrefs` for one link, appended to `hrefs`. -/
def hrefStep (base : String) (hrefs : List String) (link : Link) : List String :=
  if HasPrefix link.Href "/" then hrefs ++ [base ++ link.Href]
  else if HasPrefix link.Href "http" then hrefs ++ [link.Href]
  else hrefs

/-- The loop of `getHrefs` over the parsed links (lines 158-172). -/
def getHrefsLoop (base : String) (links : List Link) : List String :=
  links.foldl (hrefStep base) []

/-- Source `getHrefs`: the error of `Parse` is dropped (`links, _ := Parse(r)`),
leaving the nil slice of links. -/
def getHrefs (htmlParse : String → Except String Node) (r : String) (base : String) :
    List String :=
  getHrefsLoop base
    (match Parse htmlParse r with
     | .ok links => links
     | .error _ => [])

/-! ## Fetching one page -/

/-- What `getLinks` reads of an `http.Response`: the scheme and host of
`resp.Request.URL` (the URL finally served, after redirects) and the body. -/
structure Response where
  Scheme : String
  Host : String
  Body : String
  deriving DecidableEq, Repr

/-- Modelled from the spec: `(&url.URL{Scheme, Host}).String()` of Go's
`net/url` is not part of the repository; the spec gives the origin string as
`scheme://host`, which is what Go prints for a non-empty scheme and a
non-empty host without characters to escape. -/
def baseUrlString (resp : Response) : String :=
  resp.Scheme ++ "://" ++ resp.Host

/-- Source `getLinks`; `none` is the panic on a transport error. -/
def getLinks (httpGet : String → Except String Response)
    (htmlParse : String → Except String Node) (urlPath : String) : Option (List String) :=
  match httpGet urlPath with
  | .error _ => none
  | .ok resp =>
    let base := baseUrlString resp
    let hrefs := getHrefs htmlParse resp.Body base
    let filterFunc := withPrefix base
    some (filter filterFunc hrefs)

/-! ## The frontier walker -/

/-- Source `isInList`. -/
def isInList : List String → String → Bool
  | [], _ => false
  | i :: rest, item => if i = item then true else isInList rest item

/-- Source `updateSet`. -/
def updateSet (set : List String) (new_list : List String) : List String :=
  new_list.foldl (fun set item => if !isInList set item then set ++ [item] else set) set

/-- The variables of `TraversWebPage`, and the ghost log `fetched`. -/
structure Walk where
  currentList : List String
  tempList : List String
  fullList : List String
  fetched : List String
  deriving DecidableEq, Repr

/-- The inner loop of `TraversWebPage`:
`for _, link := range currentList { tempList = append(tempList, getLinks(link)...) }`.
It returns the grown `tempList` and the grown fetch log, or `none` when a
`getLinks` call panics. -/
def fetchLoop (getLinks : String → Option (List String)) :
    List String → List String → List String → Option (List String × List String)
  | [], tempList, fetched => some (tempList, fetched)
  | link :: rest, tempList, fetched =>
    match getLinks link with
    | none => none
    | some found => fetchLoop getLinks rest (tempList ++ found) (fetched ++ [link])

/-- One round of the outer loop of `TraversWebPage` (lines 180-185). -/
def level (getLinks : String → Option (List String)) (w : Walk) : Option Walk :=
  match fetchLoop getLinks w.currentList w.tempList w.fetched with
  | none => none
  | some (tempList, fetched) =>
    some { currentList := tempList
           tempList := tempList
           fullList := updateSet w.fullList tempList
           fetched := fetched }

/-- The outer loop run for `n` rounds. -/
def levels (getLinks : String → Option (List String)) : Nat → Walk → Option Walk
  | 0, w => some w
  | n + 1, w =>
    match level getLinks w with
    | none => none
    | some w' => levels getLinks n w'

/-- The state in which `TraversWebPage` enters its loop. -/
def initWalk (rootUrl : String) : Walk :=
  { currentList := [rootUrl], tempList := [], fullList := [], fetched := [] }

/-- The whole run of `TraversWebPage`: `i` goes from `0` while `i <= depth`. -/
def walk (getLinks : String → Option (List String)) (rootUrl : String) (depth : Int) :
    Option Walk :=
  levels getLinks (depth + 1).toNat (initWalk rootUrl)

/-- Source `TraversWebPage`: the final `fullList`, or `none` when a fetch panicked. -/
def TraversWebPage (getLinks : String → Option (List String)) (rootUrl : String)
    (depth : Int) : Option (List String) :=
  (walk getLinks rootUrl depth).map (fun w => w.fullList)

/-- The URLs `TraversWebPage` handed to `getLinks`, in call order (ghost). -/
def fetchedPages (getLinks : String → Option (List String)) (rootUrl : String)
    (depth : Int) : Option (List String) :=
  (walk getLinks rootUrl depth).map (fun w => w.fetched)

/-! ## Specification-side definitions -/

/-- A list with duplicates removed, in order of first occurrence: every
element is kept where it first appears and dropped from the rest. -/
def firstOccurrences : List String → List String
  | [] => []
  | x :: xs => x :: (firstOccurrences xs).filter (fun y => decide (y ≠ x))

/-- The text of a URL after its first `://` (`none` when there is none). -/
def afterSchemeSep : List Char → Option (List Char)
  | [] => none
  | c :: cs =>
    if [':', '/', '/'].isPrefixOf (c :: cs) then some (cs.drop 2) else afterSchemeSep cs

/-- The host component of a URL string as the spec reads it: the text between
`://` and the next `/`, or the end of the string. -/
def hostOf (u : String) : String :=
  match afterSchemeSep u.data with
  | none => ""
  | some rest => String.mk (rest.takeWhile (fun c => c != '/'))

/-- The text of a URL before its first `://` (everything when there is none). -/
def beforeSchemeSep : List Char → List Char
  | [] => []
  | c :: cs => if [':', '/', '/'].isPrefixOf (c :: cs) then [] else c :: beforeSchemeSep cs

/-- The scheme component of a URL string: the text before `://`. -/
def schemeOf (u : String) : String :=
  String.mk (beforeSchemeSep u.data)

/-- One round of the variant of the spec's design notes: the scratch buffer
is allocated empty at the start of the round and becomes the next frontier. -/
def levelFresh (getLinks : String → Option (List String)) (w : Walk) : Option Walk :=
  match fetchLoop getLinks w.currentList [] w.fetched with
  | none => none
  | some (tempList, fetched) =>
    some { currentList := tempList
           tempList := tempList
           fullList := updateSet w.fullList tempList
           fetched := fetched }

/-- The outer loop of the fresh-buffer variant, run for `n` rounds. -/
def levelsFresh (getLinks : String → Option (List String)) : Nat → Walk → Option Walk
  | 0, w => some w
  | n + 1, w =>
    match levelFresh getLinks w with
    | none => none
    | some w' => levelsFresh getLinks n w'

/-- The variant of `TraversWebPage` with a fresh scratch buffer per level. -/
def TraversWebPageFresh (getLinks : String → Option (List String)) (rootUrl : String)
    (depth : Int) : Option (List String) :=
  (levelsFresh getLinks (depth + 1).toNat (initWalk rootUrl)).map (fun w => w.fullList)

/-! ## Example sites -/

/-- A small site with a cycle: the root links to `a` (twice) and `b`,
`a` links back to the root and to `b`, `b` links to `a` and `c`. -/
def cycleSite (u : String) : Option (List String) :=
  if u = "r" then some ["a", "b", "a"]
  else if u = "a" then some ["b", "r"]
  else if u = "b" then some ["a", "c"]
  else if u = "c" then some []
  else none

/-- The example page of the spec, as a parsed document:
`<a href="/a">A</a><a href="http://external.com/b">B</a><a href="/a">A again</a>`. -/
def examplePage : Node :=
  .mk .DocumentNode "" [] [
    .mk .ElementNode "html" [] [
      .mk .ElementNode "head" [] [],
      .mk .ElementNode "body" [] [
        .mk .ElementNode "a" [⟨"", "href", "/a"⟩] [.mk .TextNode "A" [] []],
        .mk .ElementNode "a" [⟨"", "href", "http://external.com/b"⟩] [.mk .TextNode "B" [] []],
        .mk .ElementNode "a" [⟨"", "href", "/a"⟩] [.mk .TextNode "A again" [] []]]]]

/-- A transport that serves only `http://example.com`, without redirect. -/
def exampleGet (u : String) : Except String Response :=
  if u = "http://example.com" then .ok ⟨"http", "example.com", "<example page>"⟩
  else .error "no such host"

/-- A parser that reads every body as `examplePage`. -/
def exampleParse (_ : String) : Except String Node :=
  .ok examplePage

/-- A parser that reads every body as a page with five anchors, of targets
`/about`, `https://other.com/x`, `#section`, none at all (no `href`
attribute) and `mailto:a@b.com`. -/
def fiveLinksParse (_ : String) : Except String Node :=
  .ok (.mk .DocumentNode "" [] [
    .mk .ElementNode "a" [⟨"", "href", "/about"⟩] [.mk .TextNode "  Go   Home \n" [] []],
    .mk .ElementNode "a" [⟨"", "href", "https://other.com/x"⟩] [],
    .mk .ElementNode "a" [⟨"", "href", "#section"⟩] [],
    .mk .ElementNode "a" [⟨"", "class", "plain"⟩] [],
    .mk .ElementNode "a" [⟨"", "href", "mailto:a@b.com"⟩] []])

/-- A parser that reads every body as a page with the single anchor
`<a href="http://example.com.evil.com/x">`. -/
def foreignHostParse (_ : String) : Except String Node :=
  .ok (.mk .DocumentNode "" [] [
    .mk .ElementNode "a" [⟨"", "href", "http://example.com.evil.com/x"⟩] []])

/-- A transport with a redirect: `http://a.com` is served as is, while
`http://a.com/x` is finally served from the host `b.com`. -/
def redirectGet (u : String) : Except String Response :=
  if u = "http://a.com" then .ok ⟨"http", "a.com", "root"⟩
  else if u = "http://a.com/x" then .ok ⟨"http", "b.com", "moved"⟩
  else .error "not found"

/-- The pages behind `redirectGet`: the root page holds `<a href="/x">`, the
page served from `b.com` holds `<a href="/y">`. -/
def redirectParse (body : String) : Except String Node :=
  if body = "root" then
    .ok (.mk .DocumentNode "" [] [.mk .ElementNode "a" [⟨"", "href", "/x"⟩] []])
  else
    .ok (.mk .DocumentNode "" [] [.mk .ElementNode "a" [⟨"", "href", "/y"⟩] []])

/-- A transport without redirect for the same two pages: `http://a.com` and
`http://a.com/x` are both served from the host `a.com`. -/
def sameHostGet (u : String) : Except String Response :=
  if u = "http://a.com" then .ok ⟨"http", "a.com", "root"⟩
  else if u = "http://a.com/x" then .ok ⟨"http", "a.com", "page"⟩
  else .error "not found"

/-! ## Proof devices: the gathered links of a frontier and the loop invariants -/

/-- The successful results of `getLinks` over a frontier, concatenated in
order; `none` when one of the calls panics. -/
def gather (getLinks : String → Option (List String)) : List String → Option (List String)
  | [] => some []
  | link :: rest =>
    match getLinks link with
    | none => none
    | some found => (gather getLinks rest).map (fun more => found ++ more)

/-- Every URL of `tempList` and of `fullList` was listed by a fetched page. -/
def FoundInv (gl : String → Option (List String)) (w : Walk) : Prop :=
  (∀ u ∈ w.tempList, ∃ p ∈ w.fetched, ∃ ls, gl p = some ls ∧ u ∈ ls) ∧
  (∀ u ∈ w.fullList, ∃ p ∈ w.fetched, ∃ ls, gl p = some ls ∧ u ∈ ls)

/-- How a state `w` of `TraversWebPage` and a state `v` of the fresh-buffer
variant correspond after the same number of rounds (at least one): the
frontier of `w` is the frontier of `v` preceded by pages `old` that were
fetched before, whose links are again in the frontier of `w`. -/
def BufferRel (gl : String → Option (List String)) (w v : Walk) : Prop :=
  w.fullList = v.fullList ∧ w.tempList = w.currentList ∧
  ∃ old, w.currentList = old ++ v.currentList ∧
    (∀ x ∈ w.currentList, x ∈ w.fullList) ∧
    (∀ x ∈ old, ∃ ls, gl x = some ls ∧ ∀ y ∈ ls, y ∈ w.currentList)

/-- Set the xml name space. -/
def XMLNameSpace : String := "http://www.sitemaps.org/schemas/sitemap/0.9/"

/-- Source `loc`: one location entry. -/
structure loc where
  Value : String
  deriving DecidableEq, Repr

/-- Source `urlSet`: the sitemap value handed to the encoder. -/
structure urlSet where
  URLs : List loc
  Xmlns : String
  deriving DecidableEq, Repr

/-- The sitemap value built in `main` (lines 51-57) from the list `hrefs`
returned by `TraversWebPage`: `mySet` starts with the name space and no URL,
and the loop appends `loc{href}` for every `href`. -/
def mainUrlSet (hrefs : List String) : urlSet :=
  hrefs.foldl (fun mySet href => { mySet with URLs := mySet.URLs ++ [loc.mk href] })
    { URLs := [], Xmlns := XMLNameSpace }

/-- The outer loop of `TraversWebPage` with its counter:
`for i := 0; i <= depth; i++ { ... }`, entered with the counter at `i`. -/
def forLoop (getLinks : String → Option (List String)) (depth : Int) (i : Int) (w : Walk) :
    Option Walk :=
  if _h : i ≤ depth then
    match level getLinks w with
    | none => none
    | some w' => forLoop getLinks depth (i + 1) w'
  else some w
termination_by (depth + 1 - i).toNat
decreasing_by omega

/-- A parser that never fails: where `htmlParse` reports an error it yields a
document without any node below the root, hence without links. -/
def absorbErrors (htmlParse : String → Except String Node) (r : String) :
    Except String Node :=
  match htmlParse r with
  | .ok doc => .ok doc
  | .error _ => .ok (Node.mk NodeType.DocumentNode "" [] [])

/-- A parser that reports an error on the body `broken` and reads every other
body as `examplePage`. -/
def brokenParse (r : String) : Except String Node :=
  if r = "broken" then .error "unexpected EOF" else .ok examplePage

/-- A transport that serves `http://example.com` with the body `broken`. -/
def brokenGet (u : String) : Except String Response :=
  if u = "http://example.com" then .ok ⟨"http", "example.com", "broken"⟩
  else .error "no such host"

/-- An anchor with a `class` attribute before its two `href` attributes. -/
def twoHrefAnchor : Node :=
  .mk .ElementNode "a" [⟨"", "class", "nav"⟩, ⟨"", "href", "/first"⟩, ⟨"", "href", "/second"⟩] []

/-- An anchor without any `href` attribute. -/
def noHrefAnchor : Node :=
  .mk .ElementNode "a" [⟨"", "class", "nav"⟩, ⟨"", "id", "top"⟩] [.mk .TextNode "Top" [] []]

/-! ## Positions in a document tree -/

/-- The test of `dfs`: an element node with tag `a`. -/
def isAnchor : Node → Bool
  | .mk ty data _ _ => decide (ty = NodeType.ElementNode ∧ data = "a")

/-- A node of a document seen from the root: the path to it (child indices
from the root), the node, and whether one of its proper ancestors is an `a`
element. -/
structure Position where
  path : List Nat
  node : Node
  underAnchor : Bool

mutual
/-- All nodes of a tree in document order (depth-first, pre-order).  `path` is
the path of the root of the tree, `above` tells whether an `a` element lies
strictly above it. -/
def preorder (above : Bool) (path : List Nat) : Node → List Position
  | .mk ty data attr cs =>
    ⟨path, .mk ty data attr cs, above⟩
      :: preorderList (above || isAnchor (.mk ty data attr cs)) path 0 cs
/-- The nodes of the trees `cs`, the children number `i`, `i + 1`, ... of the
node at `path`, in document order. -/
def preorderList (above : Bool) (path : List Nat) : Nat → List Node → List Position
  | _, [] => []
  | i, c :: rest => preorder above (path ++ [i]) c ++ preorderList above path (i + 1) rest
end

/-- The `a` elements of a document that have no `a` element among their
proper ancestors, in document order. -/
def outermostAnchors (doc : Node) : List Position :=
  (preorder false [] doc).filter (fun p => isAnchor p.node && !p.underAnchor)

/-- A document with an anchor nested in an anchor, followed by an anchor
equal to the nested one. -/
def nestedAnchors : Node :=
  .mk .DocumentNode "" [] [
    .mk .ElementNode "div" [] [
      .mk .ElementNode "a" [⟨"", "href", "/outer"⟩] [
        .mk .TextNode "out" [] [],
        .mk .ElementNode "a" [⟨"", "href", "/inner"⟩] []],
      .mk .ElementNode "p" [] [.mk .ElementNode "a" [⟨"", "href", "/inner"⟩] []]]]

/-- The node found by following a path of child indices from `n`. -/
def nodeAt : Node → List Nat → Option Node
  | n, [] => some n
  | .mk _ _ _ cs, i :: rest =>
    match cs.get? i with
    | some c => nodeAt c rest
    | none => none

/-! ## Text of a node -/

mutual
/-- The contents of the text nodes of a tree, in document order. -/
def textContents : Node → List String
  | .mk ty data _ cs =>
    (if ty = NodeType.TextNode then [data] else []) ++ textContentsList cs
/-- The contents of the text nodes of the trees `cs`, in document order. -/
def textContentsList : List Node → List String
  | [] => []
  | c :: rest => textContents c ++ textContentsList rest
end

mutual
/-- The shape of the trees that `html.Parse` builds below an element: a node
that has children is an element node (text, comment and doctype nodes are
leaves). -/
def onlyElementsBranch : Node → Bool
  | .mk ty _ _ cs =>
    (cs.isEmpty || decide (ty = NodeType.ElementNode)) && onlyElementsBranchList cs
/-- The trees `cs` all have the shape `onlyElementsBranch`. -/
def onlyElementsBranchList : List Node → Bool
  | [] => true
  | c :: rest => onlyElementsBranch c && onlyElementsBranchList rest
end

/-- A word: a non-empty string without white space. -/
def IsWord (w : String) : Prop :=
  w.data ≠ [] ∧ ∀ c ∈ w.data, isSpace c = false

/-- A string that neither starts nor ends with white space. -/
def NoEdgeSpace (s : String) : Prop :=
  (∀ c, s.data.head? = some c → isSpace c = false) ∧
  (∀ c, s.data.getLast? = some c → isSpace c = false)

/-- A string in which no two neighbouring characters are both white space. -/
def NoDoubleSpace (s : String) : Prop :=
  List.Chain' (fun a b => ¬ (isSpace a = true ∧ isSpace b = true)) s.data

/-- An anchor whose only child is the text `"  Go   Home \n"`. -/
def goHomeAnchor : Node :=
  .mk .ElementNode "a" [⟨"", "href", "/"⟩] [.mk .TextNode "  Go   Home \n" [] []]

/-- An anchor with text, a nested element, a comment and more text:
`<a>Read<b> the  </b><!-- x -->docs </a>`. -/
def mixedAnchor : Node :=
  .mk .ElementNode "a" [] [
    .mk .TextNode "Read" [] [],
    .mk .ElementNode "b" [] [.mk .TextNode " the  " [] []],
    .mk .CommentNode " x " [] [],
    .mk .TextNode "docs " [] []]

/-! ## Lists: `isInList`, `filter`, `updateSet` -/

theorem isInList_eq_true_iff (l : List String) (x : String) :
    isInList l x = true ↔ x ∈ l := by
  induction l with
  | nil => simp [isInList]
  | cons i rest ih =>
    by_cases h : i = x
    · simp [isInList, h]
    · have h' : ¬ x = i := fun e => h e.symm
      simp [isInList, h, h', ih]

theorem filter_foldl_acc (p : String → Bool) (links acc : List String) :
    links.foldl (fun ret link => if p link then ret ++ [link] else ret) acc
      = acc ++ links.filter p := by
  induction links generalizing acc with
  | nil => simp
  | cons x xs ih =>
    by_cases h : p x = true
    · simp [List.foldl_cons, ih, h]
    · simp [List.foldl_cons, ih, h]

theorem filter_eq_list_filter (p : String → Bool) (links : List String) :
    filter p links = links.filter p := by
  simp [filter, filter_foldl_acc]

theorem updateSet_nil (s : List String) : updateSet s [] = s := rfl

theorem updateSet_cons (s : List String) (x : String) (xs : List String) :
    updateSet s (x :: xs) = updateSet (if x ∈ s then s else s ++ [x]) xs := by
  by_cases h : x ∈ s
  · have h' : isInList s x = true := (isInList_eq_true_iff s x).2 h
    simp [updateSet, List.foldl_cons, h, h']
  · have h' : isInList s x = false := by
      cases hb : isInList s x with
      | false => rfl
      | true => exact absurd ((isInList_eq_true_iff s x).1 hb) h
    simp [updateSet, List.foldl_cons, h, h']

theorem updateSet_append (s a b : List String) :
    updateSet s (a ++ b) = updateSet (updateSet s a) b := by
  simp [updateSet, List.foldl_append]

theorem mem_updateSet (s l : List String) (u : String) :
    u ∈ updateSet s l ↔ u ∈ s ∨ u ∈ l := by
  induction l generalizing s with
  | nil => simp [updateSet_nil]
  | cons x xs ih =>
    rw [updateSet_cons, ih]
    by_cases h : x ∈ s
    · simp only [h, if_true, List.mem_cons]
      constructor
      · rintro (h1 | h1)
        · exact Or.inl h1
        · exact Or.inr (Or.inr h1)
      · rintro (h1 | h1 | h1)
        · exact Or.inl h1
        · exact Or.inl (h1 ▸ h)
        · exact Or.inr h1
    · simp only [h, if_false, List.mem_append, List.mem_singleton, List.mem_cons]
      tauto

theorem updateSet_nodup (s l : List String) (hs : s.Nodup) : (updateSet s l).Nodup := by
  induction l generalizing s with
  | nil => simpa [updateSet_nil] using hs
  | cons x xs ih =>
    rw [updateSet_cons]
    apply ih
    by_cases h : x ∈ s
    · simpa [h] using hs
    · simp only [h, if_false]
      refine List.Nodup.append hs (List.nodup_singleton x) ?_
      intro a ha hx
      rw [List.mem_singleton] at hx
      exact h (hx ▸ ha)

theorem updateSet_of_subset (s l : List String) (h : ∀ u ∈ l, u ∈ s) : updateSet s l = s := by
  induction l with
  | nil => rfl
  | cons x xs ih =>
    rw [updateSet_cons]
    have hx : x ∈ s := h x (List.mem_cons_self x xs)
    simp only [hx, if_true]
    exact ih (fun u hu => h u (List.mem_cons_of_mem x hu))

theorem updateSet_extends (s l : List String) : s <+: updateSet s l := by
  induction l generalizing s with
  | nil => exact List.prefix_refl s
  | cons x xs ih =>
    rw [updateSet_cons]
    by_cases h : x ∈ s
    · simpa [h] using ih s
    · simp only [h, if_false]
      exact List.IsPrefix.trans (List.prefix_append s [x]) (ih (s ++ [x]))

/-! ## Normalising and filtering one page -/

theorem hasPrefix_append_self (base t : String) : HasPrefix (base ++ t) base = true := by
  unfold HasPrefix
  rw [String.data_append, List.isPrefixOf_iff_prefix]
  exact List.prefix_append _ _

theorem hasPrefix_slash_of_http (s : String) (h : HasPrefix s "http" = true) :
    HasPrefix s "/" = false := by
  unfold HasPrefix at *
  have e1 : ("http" : String).data = ['h', 't', 't', 'p'] := rfl
  have e2 : ("/" : String).data = ['/'] := rfl
  rw [e1] at h
  rw [e2]
  cases hs : s.data with
  | nil => rfl
  | cons c cs =>
    rw [hs] at h
    simp only [List.isPrefixOf, Bool.and_eq_true, beq_iff_eq] at h
    have hc : c = 'h' := h.1.symm
    subst hc
    rfl

theorem hrefStep_foldl_acc (base : String) (links : List Link) (acc : List String) :
    links.foldl (hrefStep base) acc = acc ++ getHrefsLoop base links := by
  induction links generalizing acc with
  | nil => simp [getHrefsLoop]
  | cons l ls ih =>
    have h1 := ih (hrefStep base acc l)
    have h2 := ih (hrefStep base [] l)
    simp only [getHrefsLoop, List.foldl_cons] at h1 h2 ⊢
    rw [h1, h2, ← List.append_assoc]
    congr 1
    unfold hrefStep
    split_ifs <;> simp

theorem getHrefsLoop_nil (base : String) : getHrefsLoop base [] = [] := rfl

theorem getHrefsLoop_cons (base : String) (l : Link) (ls : List Link) :
    getHrefsLoop base (l :: ls) = hrefStep base [] l ++ getHrefsLoop base ls := by
  show List.foldl (hrefStep base) (hrefStep base [] l) ls = _
  exact hrefStep_foldl_acc base ls _

theorem getHrefsLoop_append (base : String) (xs ys : List Link) :
    getHrefsLoop base (xs ++ ys) = getHrefsLoop base xs ++ getHrefsLoop base ys := by
  show List.foldl (hrefStep base) [] (xs ++ ys) = _
  rw [List.foldl_append]
  exact hrefStep_foldl_acc base ys _

theorem getHrefs_of_parse_ok (htmlParse : String → Except String Node) (r base : String)
    (links : List Link) (hp : Parse htmlParse r = .ok links) :
    getHrefs htmlParse r base = getHrefsLoop base links := by
  simp [getHrefs, hp]

/-- C4: a link whose target starts with `/` yields `base ++ target`, at its
place among the links of the page, and that entry passes the origin filter. -/
theorem rootRelative_kept (htmlParse : String → Except String Node) (r base : String)
    (before after : List Link) (l : Link)
    (hp : Parse htmlParse r = .ok (before ++ l :: after))
    (hl : HasPrefix l.Href "/" = true) :
    filter (withPrefix base) (getHrefs htmlParse r base)
      = filter (withPrefix base) (getHrefsLoop base before)
          ++ (base ++ l.Href) :: filter (withPrefix base) (getHrefsLoop base after) := by
  rw [getHrefs_of_parse_ok htmlParse r base _ hp, getHrefsLoop_append, getHrefsLoop_cons]
  simp only [filter_eq_list_filter, List.filter_append, hrefStep, hl, if_true, List.nil_append,
    List.filter_cons, withPrefix, hasPrefix_append_self, List.filter_nil, List.singleton_append]

/-- C4 on the page `fiveLinksParse`: `/about` under `http://example.com`
gives `http://example.com/about`, the only entry of that page to pass. -/
theorem rootRelative_kept_witness :
    filter (withPrefix "http://example.com")
        (getHrefs fiveLinksParse "" "http://example.com")
      = filter (withPrefix "http://example.com") (getHrefsLoop "http://example.com" [])
          ++ ("http://example.com" ++ "/about")
            :: filter (withPrefix "http://example.com")
                (getHrefsLoop "http://example.com"
                  [⟨"https://other.com/x", ""⟩, ⟨"#section", ""⟩, ⟨"", ""⟩,
                    ⟨"mailto:a@b.com", ""⟩]) ∧
    filter (withPrefix "http://example.com")
        (getHrefs fiveLinksParse "" "http://example.com") = ["http://example.com/about"] :=
  ⟨rootRelative_kept fiveLinksParse "" "http://example.com" []
      [⟨"https://other.com/x", ""⟩, ⟨"#section", ""⟩, ⟨"", ""⟩, ⟨"mailto:a@b.com", ""⟩]
      ⟨"/about", "Go Home"⟩ rfl (by decide),
    by decide⟩

/-- C5: a link whose target starts with `http` is returned unchanged when the
target begins with `base`, and contributes nothing otherwise. -/
theorem absolute_kept_iff_begins (htmlParse : String → Except String Node) (r base : String)
    (before after : List Link) (l : Link)
    (hp : Parse htmlParse r = .ok (before ++ l :: after))
    (hl : HasPrefix l.Href "http" = true) :
    filter (withPrefix base) (getHrefs htmlParse r base)
      = filter (withPrefix base) (getHrefsLoop base before)
          ++ (if HasPrefix l.Href base then [l.Href] else [])
          ++ filter (withPrefix base) (getHrefsLoop base after) := by
  rw [getHrefs_of_parse_ok htmlParse r base _ hp, getHrefsLoop_append, getHrefsLoop_cons]
  have hs := hasPrefix_slash_of_http l.Href hl
  by_cases hb : HasPrefix l.Href base = true
  · simp [filter_eq_list_filter, List.filter_append, hrefStep, hl, hs, withPrefix, hb]
  · simp [filter_eq_list_filter, List.filter_append, hrefStep, hl, hs, withPrefix, hb]

/-- C5 on the page `fiveLinksParse`: `https://other.com/x` is discarded under
the origin `http://example.com`. -/
theorem absolute_kept_iff_begins_witness :
    filter (withPrefix "http://example.com")
        (getHrefs fiveLinksParse "" "http://example.com")
      = filter (withPrefix "http://example.com")
          (getHrefsLoop "http://example.com" [⟨"/about", "Go Home"⟩])
          ++ (if HasPrefix "https://other.com/x" "http://example.com"
                then ["https://other.com/x"] else [])
          ++ filter (withPrefix "http://example.com")
              (getHrefsLoop "http://example.com"
                [⟨"#section", ""⟩, ⟨"", ""⟩, ⟨"mailto:a@b.com", ""⟩]) ∧
    HasPrefix "https://other.com/x" "http://example.com" = false :=
  ⟨absolute_kept_iff_begins fiveLinksParse "" "http://example.com"
      [⟨"/about", "Go Home"⟩] [⟨"#section", ""⟩, ⟨"", ""⟩, ⟨"mailto:a@b.com", ""⟩]
      ⟨"https://other.com/x", ""⟩ rfl (by decide),
    by decide⟩

/-- C6: a link whose target starts with neither `/` nor `http` contributes no
entry to the list built by `getHrefs`, hence none to the filtered list. -/
theorem other_target_dropped (htmlParse : String → Except String Node) (r base : String)
    (before after : List Link) (l : Link)
    (hp : Parse htmlParse r = .ok (before ++ l :: after))
    (h1 : HasPrefix l.Href "/" = false) (h2 : HasPrefix l.Href "http" = false) :
    getHrefs htmlParse r base = getHrefsLoop base before ++ getHrefsLoop base after ∧
    filter (withPrefix base) (getHrefs htmlParse r base)
      = filter (withPrefix base) (getHrefsLoop base before)
          ++ filter (withPrefix base) (getHrefsLoop base after) := by
  rw [getHrefs_of_parse_ok htmlParse r base _ hp, getHrefsLoop_append, getHrefsLoop_cons]
  simp [filter_eq_list_filter, List.filter_append, hrefStep, h1, h2]

/-- C6 on the page `fiveLinksParse`: the targets `#section`, the empty
target and `mailto:a@b.com` each contribute nothing. -/
theorem other_target_dropped_witness :
    (getHrefs fiveLinksParse "" "http://example.com"
        = getHrefsLoop "http://example.com" [⟨"/about", "Go Home"⟩, ⟨"https://other.com/x", ""⟩]
          ++ getHrefsLoop "http://example.com" [⟨"", ""⟩, ⟨"mailto:a@b.com", ""⟩] ∧
      filter (withPrefix "http://example.com")
          (getHrefs fiveLinksParse "" "http://example.com")
        = filter (withPrefix "http://example.com")
            (getHrefsLoop "http://example.com"
              [⟨"/about", "Go Home"⟩, ⟨"https://other.com/x", ""⟩])
          ++ filter (withPrefix "http://example.com")
              (getHrefsLoop "http://example.com" [⟨"", ""⟩, ⟨"mailto:a@b.com", ""⟩])) ∧
    (getHrefs fiveLinksParse "" "http://example.com"
        = getHrefsLoop "http://example.com"
            [⟨"/about", "Go Home"⟩, ⟨"https://other.com/x", ""⟩, ⟨"#section", ""⟩]
          ++ getHrefsLoop "http://example.com" [⟨"mailto:a@b.com", ""⟩] ∧
      filter (withPrefix "http://example.com")
          (getHrefs fiveLinksParse "" "http://example.com")
        = filter (withPrefix "http://example.com")
            (getHrefsLoop "http://example.com"
              [⟨"/about", "Go Home"⟩, ⟨"https://other.com/x", ""⟩, ⟨"#section", ""⟩])
          ++ filter (withPrefix "http://example.com")
              (getHrefsLoop "http://example.com" [⟨"mailto:a@b.com", ""⟩])) ∧
    (getHrefs fiveLinksParse "" "http://example.com"
        = getHrefsLoop "http://example.com"
            [⟨"/about", "Go Home"⟩, ⟨"https://other.com/x", ""⟩, ⟨"#section", ""⟩, ⟨"", ""⟩]
          ++ getHrefsLoop "http://example.com" [] ∧
      filter (withPrefix "http://example.com")
          (getHrefs fiveLinksParse "" "http://example.com")
        = filter (withPrefix "http://example.com")
            (getHrefsLoop "http://example.com"
              [⟨"/about", "Go Home"⟩, ⟨"https://other.com/x", ""⟩, ⟨"#section", ""⟩,
                ⟨"", ""⟩])
          ++ filter (withPrefix "http://example.com") (getHrefsLoop "http://example.com" [])) ∧
    getHrefs fiveLinksParse "" "http://example.com"
      = ["http://example.com/about", "https://other.com/x"] :=
  ⟨other_target_dropped fiveLinksParse "" "http://example.com"
      [⟨"/about", "Go Home"⟩, ⟨"https://other.com/x", ""⟩]
      [⟨"", ""⟩, ⟨"mailto:a@b.com", ""⟩] ⟨"#section", ""⟩ rfl (by decide) (by decide),
    other_target_dropped fiveLinksParse "" "http://example.com"
      [⟨"/about", "Go Home"⟩, ⟨"https://other.com/x", ""⟩, ⟨"#section", ""⟩]
      [⟨"mailto:a@b.com", ""⟩] ⟨"", ""⟩ rfl (by decide) (by decide),
    other_target_dropped fiveLinksParse "" "http://example.com"
      [⟨"/about", "Go Home"⟩, ⟨"https://other.com/x", ""⟩, ⟨"#section", ""⟩, ⟨"", ""⟩]
      [] ⟨"mailto:a@b.com", ""⟩ rfl (by decide) (by decide),
    by decide⟩

/-- C7: the origin filter is a string-prefix test, so under the origin
`http://example.com` the link `http://example.com.evil.com/x` is returned
although its host is `example.com.evil.com`. -/
theorem prefix_filter_keeps_foreign_host :
    getLinks exampleGet foreignHostParse "http://example.com"
      = some ["http://example.com.evil.com/x"] ∧
    filter (withPrefix "http://example.com")
        (getHrefs foreignHostParse "" "http://example.com")
      = ["http://example.com.evil.com/x"] ∧
    schemeOf "http://example.com.evil.com/x" = "http" ∧
    hostOf "http://example.com.evil.com/x" = "example.com.evil.com" ∧
    hostOf "http://example.com.evil.com/x" ≠ "example.com" := by
  decide

/-! ## The walker: rounds, duplicates -/

theorem fetchLoop_eq_gather (gl : String → Option (List String))
    (cur tempList fetched : List String) :
    fetchLoop gl cur tempList fetched
      = (gather gl cur).map (fun g => (tempList ++ g, fetched ++ cur)) := by
  induction cur generalizing tempList fetched with
  | nil => simp [fetchLoop, gather]
  | cons link rest ih =>
    cases h : gl link with
    | none => simp [fetchLoop, gather, h]
    | some found =>
      simp only [fetchLoop, gather, h, ih, Option.map_map]
      congr 1
      funext g
      simp

theorem level_eq_gather (gl : String → Option (List String)) (w : Walk) :
    level gl w = (gather gl w.currentList).map (fun g =>
      { currentList := w.tempList ++ g
        tempList := w.tempList ++ g
        fullList := updateSet w.fullList (w.tempList ++ g)
        fetched := w.fetched ++ w.currentList }) := by
  unfold level
  rw [fetchLoop_eq_gather]
  cases gather gl w.currentList <;> rfl

theorem levels_zero (gl : String → Option (List String)) (w : Walk) :
    levels gl 0 w = some w := rfl

theorem levels_succ (gl : String → Option (List String)) (n : Nat) (w : Walk) :
    levels gl (n + 1) w = (level gl w).bind (levels gl n) := by
  cases h : level gl w <;> simp [levels, h]

theorem levels_add (gl : String → Option (List String)) (n m : Nat) (w : Walk) :
    levels gl (n + m) w = (levels gl n w).bind (levels gl m) := by
  induction n generalizing w with
  | zero => simp [levels_zero]
  | succ n ih =>
    rw [Nat.succ_add, levels_succ, levels_succ]
    cases h : level gl w with
    | none => rfl
    | some w' => simpa using ih w'

theorem level_fullList_nodup (gl : String → Option (List String)) (w w' : Walk)
    (h : level gl w = some w') (hw : w.fullList.Nodup) : w'.fullList.Nodup := by
  rw [level_eq_gather] at h
  obtain ⟨g, -, rfl⟩ := Option.map_eq_some'.1 h
  exact updateSet_nodup _ _ hw

theorem levels_fullList_nodup (gl : String → Option (List String)) (n : Nat) (w w' : Walk)
    (h : levels gl n w = some w') (hw : w.fullList.Nodup) : w'.fullList.Nodup := by
  induction n generalizing w with
  | zero =>
    rw [levels_zero] at h
    cases h
    exact hw
  | succ n ih =>
    rw [levels_succ] at h
    obtain ⟨w1, h1, h2⟩ := Option.bind_eq_some.1 h
    exact ih w1 h2 (level_fullList_nodup gl w w1 h1 hw)

/-- C1: whatever the root, the depth and the page fetcher, the list returned
by `TraversWebPage` contains no URL twice. -/
theorem TraversWebPage_nodup (gl : String → Option (List String)) (rootUrl : String)
    (depth : Int) (l : List String) (h : TraversWebPage gl rootUrl depth = some l) :
    l.Nodup := by
  unfold TraversWebPage walk at h
  obtain ⟨w, hw, rfl⟩ := Option.map_eq_some'.1 h
  exact levels_fullList_nodup gl _ _ w hw List.nodup_nil

/-- C1 at a site with a cycle, crawled to depth 2: every page is rediscovered
at several levels and is listed once. -/
theorem TraversWebPage_nodup_witness :
    TraversWebPage cycleSite "r" 2 = some ["a", "b", "r", "c"] ∧
      (["a", "b", "r", "c"] : List String).Nodup :=
  ⟨by decide, TraversWebPage_nodup cycleSite "r" 2 ["a", "b", "r", "c"] (by decide)⟩

/-! ## The walker: reachability -/

theorem firstOccurrences_filter (p : String → Bool) (l : List String) :
    firstOccurrences (l.filter p) = (firstOccurrences l).filter p := by
  induction l with
  | nil => rfl
  | cons x xs ih =>
    by_cases h : p x = true
    · simp only [List.filter_cons, h, if_true, firstOccurrences, ih, List.filter_filter]
      congr 1
      apply List.filter_congr
      intro y _
      exact Bool.and_comm _ _
    · simp only [List.filter_cons, h, firstOccurrences, List.filter_filter]
      simp only [Bool.false_eq_true, if_false]
      rw [ih]
      apply List.filter_congr
      intro y _
      by_cases hy : y = x
      · subst hy
        simp [h]
      · simp [hy]

theorem updateSet_eq_firstOccurrences (s l : List String) :
    updateSet s l = s ++ firstOccurrences (l.filter (fun y => decide (y ∉ s))) := by
  induction l generalizing s with
  | nil => simp [updateSet_nil, firstOccurrences]
  | cons x xs ih =>
    rw [updateSet_cons]
    by_cases h : x ∈ s
    · simp only [h, if_true, ih, List.filter_cons, not_true_eq_false, decide_False,
        Bool.false_eq_true, if_false]
    · simp only [h, if_false, ih, List.filter_cons, not_false_eq_true, decide_True, if_true,
        firstOccurrences, List.append_assoc, List.singleton_append]
      congr 2
      rw [← firstOccurrences_filter, List.filter_filter]
      congr 1
      apply List.filter_congr
      intro y _
      by_cases hy : y = x
      · subst hy
        simp
      · by_cases hs : y ∈ s
        · simp [hy, hs]
        · simp [hy, hs]

theorem updateSet_nil_left (l : List String) : updateSet [] l = firstOccurrences l := by
  rw [updateSet_eq_firstOccurrences]
  simp

/-- C3: at depth 0 the crawl fetches exactly one page, the root, and returns
that page's links with duplicates removed, in order of first occurrence (and
panics exactly when the fetch of the root does).  On the example page of the
spec the result is the single URL `http://example.com/a`. -/
theorem TraversWebPage_depth_zero (gl : String → Option (List String)) (rootUrl : String) :
    TraversWebPage gl rootUrl 0 = (gl rootUrl).map firstOccurrences ∧
    fetchedPages gl rootUrl 0 = (gl rootUrl).map (fun _ => [rootUrl]) ∧
    TraversWebPage (getLinks exampleGet exampleParse) "http://example.com" 0
      = some ["http://example.com/a"] ∧
    fetchedPages (getLinks exampleGet exampleParse) "http://example.com" 0
      = some ["http://example.com"] := by
  have e : ((0 : Int) + 1).toNat = 0 + 1 := by decide
  refine ⟨?_, ?_, by decide, by decide⟩
  · simp only [TraversWebPage, walk, e, levels_succ, levels_zero, level_eq_gather, initWalk,
      gather]
    cases h : gl rootUrl with
    | none => rfl
    | some ls => simp [updateSet_nil_left]
  · simp only [fetchedPages, walk, e, levels_succ, levels_zero, level_eq_gather, initWalk,
      gather]
    cases h : gl rootUrl with
    | none => rfl
    | some ls => simp

/-! ## The walker: origins -/

theorem gather_append (gl : String → Option (List String)) (a b : List String) :
    gather gl (a ++ b)
      = (gather gl a).bind (fun ga => (gather gl b).map (fun gb => ga ++ gb)) := by
  induction a with
  | nil =>
    cases hb : gather gl b <;> simp [gather, hb]
  | cons x xs ih =>
    cases hx : gl x with
    | none => simp [gather, hx]
    | some ls =>
      have e : gather gl (x :: xs ++ b)
          = (gather gl (xs ++ b)).map (fun more => ls ++ more) := by
        simp [gather, hx]
      rw [e, ih]
      cases ha : gather gl xs with
      | none => simp [gather, hx, ha]
      | some ga =>
        cases hb : gather gl b with
        | none => simp [gather, hx, ha]
        | some gb => simp [gather, hx, ha]

theorem gather_some_of_forall (gl : String → Option (List String)) (a : List String)
    (h : ∀ x ∈ a, ∃ ls, gl x = some ls) : ∃ g, gather gl a = some g := by
  induction a with
  | nil => exact ⟨[], rfl⟩
  | cons x xs ih =>
    obtain ⟨ls, hls⟩ := h x (List.mem_cons_self x xs)
    obtain ⟨g, hg⟩ := ih (fun y hy => h y (List.mem_cons_of_mem x hy))
    exact ⟨ls ++ g, by simp [gather, hls, hg]⟩

theorem gather_fetch_ok (gl : String → Option (List String)) (a g : List String)
    (h : gather gl a = some g) : ∀ x ∈ a, ∃ ls, gl x = some ls ∧ ∀ y ∈ ls, y ∈ g := by
  induction a generalizing g with
  | nil => intro x hx; cases hx
  | cons x xs ih =>
    cases hx : gl x with
    | none => simp [gather, hx] at h
    | some ls =>
      simp only [gather, hx] at h
      obtain ⟨g', hg', rfl⟩ := Option.map_eq_some'.1 h
      intro z hz
      rcases List.mem_cons.1 hz with rfl | hz
      · exact ⟨ls, hx, fun y hy => List.mem_append_left _ hy⟩
      · obtain ⟨ls', h1, h2⟩ := ih g' hg' z hz
        exact ⟨ls', h1, fun y hy => List.mem_append_right _ (h2 y hy)⟩

theorem gather_mem (gl : String → Option (List String)) (a g : List String)
    (h : gather gl a = some g) (u : String) (hu : u ∈ g) :
    ∃ p ∈ a, ∃ ls, gl p = some ls ∧ u ∈ ls := by
  induction a generalizing g with
  | nil =>
    simp only [gather, Option.some.injEq] at h
    subst h
    cases hu
  | cons x xs ih =>
    cases hx : gl x with
    | none => simp [gather, hx] at h
    | some ls =>
      simp only [gather, hx] at h
      obtain ⟨g', hg', rfl⟩ := Option.map_eq_some'.1 h
      rcases List.mem_append.1 hu with hu | hu
      · exact ⟨x, List.mem_cons_self x xs, ls, hx, hu⟩
      · obtain ⟨p, hp, ls', h1, h2⟩ := ih g' hg' hu
        exact ⟨p, List.mem_cons_of_mem x hp, ls', h1, h2⟩

theorem foundInv_level (gl : String → Option (List String)) (w w' : Walk)
    (h : level gl w = some w') (hw : FoundInv gl w) : FoundInv gl w' := by
  rw [level_eq_gather] at h
  obtain ⟨g, hg, rfl⟩ := Option.map_eq_some'.1 h
  have ht : ∀ u ∈ w.tempList ++ g,
      ∃ p ∈ w.fetched ++ w.currentList, ∃ ls, gl p = some ls ∧ u ∈ ls := by
    intro u hu
    rcases List.mem_append.1 hu with hu | hu
    · obtain ⟨p, hp, r⟩ := hw.1 u hu
      exact ⟨p, List.mem_append_left _ hp, r⟩
    · obtain ⟨p, hp, r⟩ := gather_mem gl _ g hg u hu
      exact ⟨p, List.mem_append_right _ hp, r⟩
  refine ⟨ht, ?_⟩
  intro u hu
  rcases (mem_updateSet _ _ u).1 hu with hu | hu
  · obtain ⟨p, hp, r⟩ := hw.2 u hu
    exact ⟨p, List.mem_append_left _ hp, r⟩
  · exact ht u hu

theorem foundInv_levels (gl : String → Option (List String)) (n : Nat) (w w' : Walk)
    (h : levels gl n w = some w') (hw : FoundInv gl w) : FoundInv gl w' := by
  induction n generalizing w with
  | zero =>
    rw [levels_zero] at h
    cases h
    exact hw
  | succ n ih =>
    rw [levels_succ] at h
    obtain ⟨w1, h1, h2⟩ := Option.bind_eq_some.1 h
    exact ih w1 h2 (foundInv_level gl w w1 h1 hw)

theorem getLinks_mem_hasPrefix (httpGet : String → Except String Response)
    (htmlParse : String → Except String Node) (p : String) (ls : List String)
    (h : getLinks httpGet htmlParse p = some ls) (u : String) (hu : u ∈ ls) :
    ∃ resp, httpGet p = .ok resp ∧ HasPrefix u (baseUrlString resp) = true := by
  unfold getLinks at h
  cases hg : httpGet p with
  | error e => simp [hg] at h
  | ok resp =>
    simp only [hg, Option.some.injEq] at h
    subst h
    rw [filter_eq_list_filter, List.mem_filter] at hu
    exact ⟨resp, rfl, hu.2⟩

/-- C8 (as the code has it): every URL returned by the crawl is in the link
list that `getLinks` returned for some page fetched in that crawl, and it
begins with the origin string derived from the fetch of that page; the origin
is derived anew at every fetch.  Hence all returned URLs begin with one origin
when every fetched page was served from it. -/
theorem TraversWebPage_origin_per_fetch (httpGet : String → Except String Response)
    (htmlParse : String → Except String Node) (rootUrl : String) (depth : Int)
    (l log : List String)
    (hl : TraversWebPage (getLinks httpGet htmlParse) rootUrl depth = some l)
    (hlog : fetchedPages (getLinks httpGet htmlParse) rootUrl depth = some log) :
    (∀ u ∈ l, ∃ p ∈ log, ∃ resp ls, httpGet p = .ok resp ∧
        getLinks httpGet htmlParse p = some ls ∧ u ∈ ls ∧
        HasPrefix u (baseUrlString resp) = true) ∧
    (∀ origin, (∀ p ∈ log, ∀ resp, httpGet p = .ok resp → baseUrlString resp = origin) →
        ∀ u ∈ l, HasPrefix u origin = true) := by
  unfold TraversWebPage at hl
  unfold fetchedPages at hlog
  obtain ⟨w, hw, rfl⟩ := Option.map_eq_some'.1 hl
  obtain ⟨w2, hw2, rfl⟩ := Option.map_eq_some'.1 hlog
  rw [hw] at hw2
  cases hw2
  have hinv : FoundInv (getLinks httpGet htmlParse) w := by
    refine foundInv_levels _ _ _ w hw ⟨?_, ?_⟩ <;>
    · intro u hu
      cases hu
  have key : ∀ u ∈ w.fullList, ∃ p ∈ w.fetched, ∃ resp ls, httpGet p = .ok resp ∧
      getLinks httpGet htmlParse p = some ls ∧ u ∈ ls ∧
      HasPrefix u (baseUrlString resp) = true := by
    intro u hu
    obtain ⟨p, hp, ls, hls, hmem⟩ := hinv.2 u hu
    obtain ⟨resp, hr, hpre⟩ := getLinks_mem_hasPrefix httpGet htmlParse p ls hls u hmem
    exact ⟨p, hp, resp, ls, hr, hls, hmem, hpre⟩
  refine ⟨key, ?_⟩
  intro origin ho u hu
  obtain ⟨p, hp, resp, ls, hr, -, -, hpre⟩ := key u hu
  rw [← ho p hp resp hr]
  exact hpre

/-- C8 on two crawls to depth 1.  With the redirect of `redirectGet` the page
`http://a.com/x` is served from `b.com`, and the returned `http://b.com/y` is
listed by that page and begins with its origin.  Without redirect
(`sameHostGet`) both fetched pages are served from `http://a.com`, and both
returned URLs begin with it. -/
theorem TraversWebPage_origin_per_fetch_witness :
    ((∀ u ∈ ["http://a.com/x", "http://b.com/y"],
        ∃ p ∈ ["http://a.com", "http://a.com/x"], ∃ resp ls, redirectGet p = .ok resp ∧
          getLinks redirectGet redirectParse p = some ls ∧ u ∈ ls ∧
          HasPrefix u (baseUrlString resp) = true) ∧
      (∀ origin, (∀ p ∈ ["http://a.com", "http://a.com/x"], ∀ resp,
          redirectGet p = .ok resp → baseUrlString resp = origin) →
          ∀ u ∈ ["http://a.com/x", "http://b.com/y"], HasPrefix u origin = true)) ∧
    TraversWebPage (getLinks sameHostGet redirectParse) "http://a.com" 1
      = some ["http://a.com/x", "http://a.com/y"] ∧
    fetchedPages (getLinks sameHostGet redirectParse) "http://a.com" 1
      = some ["http://a.com", "http://a.com/x"] ∧
    (∀ p ∈ ["http://a.com", "http://a.com/x"], ∀ resp,
      sameHostGet p = .ok resp → baseUrlString resp = "http://a.com") ∧
    (∀ u ∈ ["http://a.com/x", "http://a.com/y"], HasPrefix u "http://a.com" = true) :=
  have hsame : ∀ p ∈ ["http://a.com", "http://a.com/x"], ∀ resp,
      sameHostGet p = .ok resp → baseUrlString resp = "http://a.com" := by
    intro p hp resp h
    simp only [List.mem_cons, List.mem_singleton, List.not_mem_nil, or_false] at hp
    rcases hp with rfl | rfl
    · have e : sameHostGet "http://a.com" = .ok ⟨"http", "a.com", "root"⟩ := rfl
      rw [e] at h
      cases h
      decide
    · have e : sameHostGet "http://a.com/x" = .ok ⟨"http", "a.com", "page"⟩ := rfl
      rw [e] at h
      cases h
      decide
  ⟨TraversWebPage_origin_per_fetch redirectGet redirectParse "http://a.com" 1
      ["http://a.com/x", "http://b.com/y"] ["http://a.com", "http://a.com/x"]
      (by decide) (by decide),
    by decide, by decide, hsame,
    (TraversWebPage_origin_per_fetch sameHostGet redirectParse "http://a.com" 1
      ["http://a.com/x", "http://a.com/y"] ["http://a.com", "http://a.com/x"]
      (by decide) (by decide)).2 "http://a.com" hsame⟩

/-- C8 as stated fails: with the redirect of `redirectGet`, the crawl of
`http://a.com` to depth 1 returns `http://b.com/y`, which does not begin with
the origin `http://a.com` derived from the fetch of the root. -/
theorem origin_not_constant :
    redirectGet "http://a.com" = .ok ⟨"http", "a.com", "root"⟩ ∧
    baseUrlString ⟨"http", "a.com", "root"⟩ = "http://a.com" ∧
    TraversWebPage (getLinks redirectGet redirectParse) "http://a.com" 1
      = some ["http://a.com/x", "http://b.com/y"] ∧
    HasPrefix "http://b.com/y" "http://a.com" = false ∧
    ¬ (∀ u ∈ ["http://a.com/x", "http://b.com/y"],
        HasPrefix u (baseUrlString ⟨"http", "a.com", "root"⟩) = true) := by
  refine ⟨rfl, by decide, by decide, by decide, by decide⟩

/-! ## The walker: the scratch buffer -/

theorem levelFresh_eq_gather (gl : String → Option (List String)) (w : Walk) :
    levelFresh gl w = (gather gl w.currentList).map (fun g =>
      { currentList := g
        tempList := g
        fullList := updateSet w.fullList g
        fetched := w.fetched ++ w.currentList }) := by
  unfold levelFresh
  rw [fetchLoop_eq_gather]
  cases gather gl w.currentList <;> simp

theorem levelsFresh_succ (gl : String → Option (List String)) (n : Nat) (w : Walk) :
    levelsFresh gl (n + 1) w = (levelFresh gl w).bind (levelsFresh gl n) := by
  cases h : levelFresh gl w <;> simp [levelsFresh, h]

theorem bufferRel_step (gl : String → Option (List String)) (w v : Walk)
    (h : BufferRel gl w v) :
    (level gl w = none ∧ levelFresh gl v = none) ∨
    ∃ w' v', level gl w = some w' ∧ levelFresh gl v = some v' ∧ BufferRel gl w' v' := by
  obtain ⟨hfull, htemp, old, hcur, hsub, hold⟩ := h
  obtain ⟨go, hgo⟩ := gather_some_of_forall gl old
    (fun x hx => let ⟨ls, h1, _⟩ := hold x hx; ⟨ls, h1⟩)
  have hgo_mem : ∀ u ∈ go, u ∈ w.currentList := by
    intro u hu
    obtain ⟨p, hp, ls, h1, h2⟩ := gather_mem gl old go hgo u hu
    obtain ⟨ls', h1', h2'⟩ := hold p hp
    rw [h1] at h1'
    cases h1'
    exact h2' u h2
  rw [level_eq_gather, levelFresh_eq_gather, hcur, gather_append, hgo]
  cases hg : gather gl v.currentList with
  | none => exact Or.inl ⟨rfl, rfl⟩
  | some g =>
    right
    refine ⟨_, _, rfl, rfl, ?_, rfl, old ++ v.currentList ++ go, ?_, ?_, ?_⟩
    · show updateSet w.fullList (w.tempList ++ (go ++ g)) = updateSet v.fullList g
      rw [← hfull, updateSet_append, updateSet_append]
      have e1 : updateSet w.fullList w.tempList = w.fullList :=
        updateSet_of_subset _ _ (fun u hu => hsub u (htemp ▸ hu))
      have e2 : updateSet w.fullList go = w.fullList :=
        updateSet_of_subset _ _ (fun u hu => hsub u (hgo_mem u hu))
      rw [e1, e2]
    · show w.tempList ++ (go ++ g) = old ++ v.currentList ++ go ++ g
      rw [htemp, hcur]
      simp
    · intro x hx
      show x ∈ updateSet w.fullList (w.tempList ++ (go ++ g))
      rw [mem_updateSet]
      exact Or.inr hx
    · intro x hx
      have hstep : ∀ z ∈ w.currentList, ∃ ls, gl z = some ls ∧
          ∀ y ∈ ls, y ∈ w.tempList ++ (go ++ g) := by
        intro z hz
        rw [hcur] at hz
        rcases List.mem_append.1 hz with hz | hz
        · obtain ⟨ls, h1, h2⟩ := hold z hz
          exact ⟨ls, h1, fun y hy => List.mem_append_left _ (htemp ▸ h2 y hy)⟩
        · obtain ⟨ls, h1, h2⟩ := gather_fetch_ok gl _ g hg z hz
          exact ⟨ls, h1, fun y hy =>
            List.mem_append_right _ (List.mem_append_right _ (h2 y hy))⟩
      rcases List.mem_append.1 hx with hx | hx
      · exact hstep x (hcur ▸ hx)
      · exact hstep x (hgo_mem x hx)

theorem bufferRel_levels (gl : String → Option (List String)) (n : Nat) (w v : Walk)
    (h : BufferRel gl w v) :
    (levels gl n w).map (fun s => s.fullList)
      = (levelsFresh gl n v).map (fun s => s.fullList) := by
  induction n generalizing w v with
  | zero => simp [levels, levelsFresh, h.1]
  | succ n ih =>
    rw [levels_succ, levelsFresh_succ]
    rcases bufferRel_step gl w v h with ⟨h1, h2⟩ | ⟨w', v', h1, h2, hrel⟩
    · rw [h1, h2]
      rfl
    · rw [h1, h2]
      exact ih w' v' hrel

/-- C9: `TraversWebPage`, whose scratch buffer `tempList` is never reset,
returns the same list, in the same order, as the variant that starts every
level with an empty scratch buffer; and one panics exactly when the other does. -/
theorem TraversWebPage_eq_fresh (gl : String → Option (List String)) (rootUrl : String)
    (depth : Int) :
    TraversWebPage gl rootUrl depth = TraversWebPageFresh gl rootUrl depth := by
  unfold TraversWebPage TraversWebPageFresh walk
  cases (depth + 1).toNat with
  | zero => rfl
  | succ n =>
    rw [levels_succ, levelsFresh_succ, level_eq_gather, levelFresh_eq_gather]
    cases hg : gather gl (initWalk rootUrl).currentList with
    | none => rfl
    | some g =>
      simp only [Option.map_some', Option.some_bind]
      apply bufferRel_levels
      refine ⟨by simp [initWalk], rfl, [], by simp [initWalk], ?_, ?_⟩
      · intro x hx
        show x ∈ updateSet _ _
        rw [mem_updateSet]
        exact Or.inr hx
      · intro x hx
        cases hx

/-! ## The walker: stabilisation -/

theorem level_fullList_extends (gl : String → Option (List String)) (w w' : Walk)
    (h : level gl w = some w') : w.fullList <+: w'.fullList := by
  rw [level_eq_gather] at h
  obtain ⟨g, -, rfl⟩ := Option.map_eq_some'.1 h
  exact updateSet_extends _ _

theorem levels_fullList_extends (gl : String → Option (List String)) (n : Nat) (w w' : Walk)
    (h : levels gl n w = some w') : w.fullList <+: w'.fullList := by
  induction n generalizing w with
  | zero =>
    rw [levels_zero] at h
    cases h
    exact List.prefix_refl _
  | succ n ih =>
    rw [levels_succ] at h
    obtain ⟨w1, h1, h2⟩ := Option.bind_eq_some.1 h
    exact List.IsPrefix.trans (level_fullList_extends gl w w1 h1) (ih w1 h2)

theorem toNat_succ_cases (d : Int) :
    (d + 1 + 1).toNat = (d + 1).toNat ∨ (d + 1 + 1).toNat = (d + 1).toNat + 1 := by
  omega

/-- C11: the visited list only grows.  Whenever the crawl to depth `d + 1`
returns a list, the crawl to depth `d` returns a list too, and it is a prefix
of the deeper one; and `updateSet set new_list` always has `set` as a prefix. -/
theorem TraversWebPage_grows (gl : String → Option (List String)) (rootUrl : String)
    (d : Int) (deeper : List String)
    (h : TraversWebPage gl rootUrl (d + 1) = some deeper) :
    (∃ l, TraversWebPage gl rootUrl d = some l ∧ l <+: deeper) ∧
    ∀ set new_list : List String, set <+: updateSet set new_list := by
  refine ⟨?_, fun set new_list => updateSet_extends set new_list⟩
  unfold TraversWebPage walk at *
  obtain ⟨w', hw', rfl⟩ := Option.map_eq_some'.1 h
  rcases toNat_succ_cases d with e | e
  · rw [e] at hw'
    exact ⟨w'.fullList, by rw [hw']; rfl, List.prefix_refl _⟩
  · rw [e, levels_add] at hw'
    obtain ⟨w, hw, hstep⟩ := Option.bind_eq_some.1 hw'
    exact ⟨w.fullList, by rw [hw]; rfl, levels_fullList_extends gl 1 w w' hstep⟩

/-- C11 on the site `cycleSite`: depth 0 returns `[a, b]`, a prefix of the
list `[a, b, r, c]` returned at depth 1. -/
theorem TraversWebPage_grows_witness :
    TraversWebPage cycleSite "r" 0 = some ["a", "b"] ∧
    ((∃ l, TraversWebPage cycleSite "r" 0 = some l ∧ l <+: ["a", "b", "r", "c"]) ∧
      ∀ set new_list : List String, set <+: updateSet set new_list) :=
  ⟨by decide, TraversWebPage_grows cycleSite "r" 0 ["a", "b", "r", "c"] (by decide)⟩

/-! ## The sitemap value -/

theorem mainUrlSet_foldl (hrefs : List String) (s : urlSet) :
    hrefs.foldl (fun mySet href => { mySet with URLs := mySet.URLs ++ [loc.mk href] }) s
      = { URLs := s.URLs ++ hrefs.map loc.mk, Xmlns := s.Xmlns } := by
  induction hrefs generalizing s with
  | nil => simp
  | cons x xs ih => simp [List.foldl_cons, ih]

/-- C14: the sitemap value built in `main` holds one location entry per URL
of the crawl's list, in the same order (entry `i` holds URL `i`, so there are
as many entries as URLs), and its name space is the fixed string
`http://www.sitemaps.org/schemas/sitemap/0.9/`. -/
theorem mainUrlSet_entries (hrefs : List String) :
    (mainUrlSet hrefs).URLs = hrefs.map loc.mk ∧
    (mainUrlSet hrefs).URLs.length = hrefs.length ∧
    (∀ i : Nat, ((mainUrlSet hrefs).URLs.get? i).map loc.Value = hrefs.get? i) ∧
    (mainUrlSet hrefs).Xmlns = "http://www.sitemaps.org/schemas/sitemap/0.9/" := by
  have e : mainUrlSet hrefs = { URLs := hrefs.map loc.mk, Xmlns := XMLNameSpace } := by
    unfold mainUrlSet
    rw [mainUrlSet_foldl]
    simp
  rw [e]
  refine ⟨rfl, by simp, ?_, rfl⟩
  intro i
  simp [List.get?_eq_getElem?, List.getElem?_map, Option.map_map, Function.comp_def]

/-! ## Normalising and filtering: order, duplicates, `href` -/

theorem hasPrefix_append_right (s pre t : String) (h : HasPrefix s pre = true) :
    HasPrefix (s ++ t) pre = true := by
  unfold HasPrefix at *
  rw [List.isPrefixOf_iff_prefix] at *
  rw [String.data_append]
  exact List.IsPrefix.trans h (List.prefix_append _ _)

theorem filtered_append (base : String) (xs ys : List Link) :
    filter (withPrefix base) (getHrefsLoop base (xs ++ ys))
      = filter (withPrefix base) (getHrefsLoop base xs)
          ++ filter (withPrefix base) (getHrefsLoop base ys) := by
  rw [getHrefsLoop_append, filter_eq_list_filter, filter_eq_list_filter,
    filter_eq_list_filter, List.filter_append]

theorem filtered_singleton_cases (base : String) (l : Link) (u : String)
    (h : filter (withPrefix base) (getHrefsLoop base [l]) = [u]) :
    (HasPrefix l.Href "/" = true ∧ u = base ++ l.Href) ∨
    (HasPrefix l.Href "/" = false ∧ HasPrefix l.Href "http" = true ∧
      HasPrefix l.Href base = true ∧ u = l.Href) := by
  rw [getHrefsLoop_cons, getHrefsLoop_nil, List.append_nil, filter_eq_list_filter] at h
  unfold hrefStep at h
  by_cases h1 : HasPrefix l.Href "/" = true
  · left
    simp only [h1, if_true, List.nil_append, List.filter_cons, withPrefix,
      hasPrefix_append_self, List.filter_nil, List.cons.injEq, and_true] at h
    exact ⟨h1, h.symm⟩
  · right
    have h1' : HasPrefix l.Href "/" = false := by simpa using h1
    by_cases h2 : HasPrefix l.Href "http" = true
    · by_cases h3 : HasPrefix l.Href base = true
      · simp only [h1', h2, if_true, Bool.false_eq_true, if_false, List.nil_append,
          List.filter_cons, withPrefix, h3, List.filter_nil, List.cons.injEq, and_true] at h
        exact ⟨h1', h2, h3, h.symm⟩
      · simp [h1', h2, withPrefix, h3] at h
    · simp [h1', h2] at h

theorem string_ne_append_slash (u : String) : u ≠ u ++ "/" := by
  intro h
  have h2 : u.data.length = (u ++ "/").data.length := congrArg (fun s => s.data.length) h
  rw [String.data_append, List.length_append] at h2
  have h3 : ("/" : String).data.length = 1 := rfl
  omega

/-- C16: the normalise-then-filter step distributes over concatenation of
link lists, so it keeps the input order and never merges entries: a kept
target that occurs twice yields its URL twice, and a kept target and the same
target with a trailing slash yield two distinct entries. -/
theorem filtered_keeps_order_and_duplicates (base : String) (xs ys : List Link)
    (l : Link) (u txt : String)
    (h : filter (withPrefix base) (getHrefsLoop base [l]) = [u]) :
    filter (withPrefix base) (getHrefsLoop base (xs ++ ys))
      = filter (withPrefix base) (getHrefsLoop base xs)
          ++ filter (withPrefix base) (getHrefsLoop base ys) ∧
    filter (withPrefix base) (getHrefsLoop base [l, l]) = [u, u] ∧
    filter (withPrefix base) (getHrefsLoop base [l, ⟨l.Href ++ "/", txt⟩]) = [u, u ++ "/"] ∧
    u ≠ u ++ "/" := by
  refine ⟨filtered_append base xs ys, ?_, ?_, string_ne_append_slash u⟩
  · have := filtered_append base [l] [l]
    rw [h] at this
    exact this
  · have e := filtered_append base [l] [⟨l.Href ++ "/", txt⟩]
    rw [h] at e
    have e2 : filter (withPrefix base) (getHrefsLoop base [⟨l.Href ++ "/", txt⟩])
        = [u ++ "/"] := by
      rw [getHrefsLoop_cons, getHrefsLoop_nil, List.append_nil, filter_eq_list_filter]
      unfold hrefStep
      rcases filtered_singleton_cases base l u h with ⟨h1, rfl⟩ | ⟨h1, h2, h3, rfl⟩
      · have h1' := hasPrefix_append_right l.Href "/" "/" h1
        simp only [h1', if_true, List.nil_append, List.filter_cons, withPrefix,
          List.filter_nil]
        have e3 : base ++ (l.Href ++ "/") = base ++ l.Href ++ "/" := by
          apply String.ext
          simp [String.data_append]
        rw [e3, hasPrefix_append_right _ _ _ (hasPrefix_append_self base l.Href)]
        rfl
      · have h2' := hasPrefix_append_right l.Href "http" "/" h2
        have h1' := hasPrefix_slash_of_http _ h2'
        have h3' := hasPrefix_append_right l.Href base "/" h3
        simp [h1', h2', withPrefix, h3']
    rw [e2] at e
    exact e

/-- C16 under the origin `http://x`: the target `/a` twice gives
`http://x/a` twice, and `/a` with `/a/` gives `http://x/a` and `http://x/a/`. -/
theorem filtered_keeps_order_and_duplicates_witness :
    filter (withPrefix "http://x")
        (getHrefsLoop "http://x" ([⟨"/b", ""⟩, ⟨"#top", ""⟩] ++ [⟨"/a", ""⟩, ⟨"/b", ""⟩]))
      = filter (withPrefix "http://x") (getHrefsLoop "http://x" [⟨"/b", ""⟩, ⟨"#top", ""⟩])
          ++ filter (withPrefix "http://x")
              (getHrefsLoop "http://x" [⟨"/a", ""⟩, ⟨"/b", ""⟩]) ∧
    filter (withPrefix "http://x") (getHrefsLoop "http://x" [⟨"/a", "A"⟩, ⟨"/a", "A"⟩])
      = ["http://x/a", "http://x/a"] ∧
    filter (withPrefix "http://x")
        (getHrefsLoop "http://x" [⟨"/a", "A"⟩, ⟨"/a" ++ "/", "again"⟩])
      = ["http://x/a", "http://x/a" ++ "/"] ∧
    ("http://x/a" : String) ≠ "http://x/a" ++ "/" :=
  filtered_keeps_order_and_duplicates "http://x" [⟨"/b", ""⟩, ⟨"#top", ""⟩]
    [⟨"/a", ""⟩, ⟨"/b", ""⟩] ⟨"/a", "A"⟩ "http://x/a" "again" (by decide)

theorem find_href_split (pre post : List Attribute) (a : Attribute)
    (ha : a.Key = "href") (hpre : ∀ b ∈ pre, b.Key ≠ "href") :
    (pre ++ a :: post).find? (fun attr => attr.Key == "href") = some a := by
  induction pre with
  | nil => simp [List.find?, ha]
  | cons b bs ih =>
    have hb : b.Key ≠ "href" := hpre b (List.mem_cons_self b bs)
    have : (b.Key == "href") = false := by simpa using hb
    simp only [List.cons_append, List.find?, this]
    exact ih (fun c hc => hpre c (List.mem_cons_of_mem b hc))

theorem find_href_none (attrs : List Attribute) (h : ∀ b ∈ attrs, b.Key ≠ "href") :
    attrs.find? (fun attr => attr.Key == "href") = none := by
  rw [List.find?_eq_none]
  intro b hb
  simpa using h b hb

/-- C17: `buildLink` takes the target from the first attribute whose key is
`href`; without such an attribute the target is the empty string, and the
link then contributes no entry, before or after the origin filter. -/
theorem buildLink_href (n : Node) :
    (∀ pre a post, n.Attr = pre ++ a :: post → a.Key = "href" →
      (∀ b ∈ pre, b.Key ≠ "href") → (buildLink n).Href = a.Val) ∧
    ((∀ b ∈ n.Attr, b.Key ≠ "href") →
      (buildLink n).Href = "" ∧
      ∀ base, getHrefsLoop base [buildLink n] = [] ∧
        filter (withPrefix base) (getHrefsLoop base [buildLink n]) = []) := by
  constructor
  · intro pre a post hn ha hpre
    simp only [buildLink, hn, find_href_split pre post a ha hpre]
  · intro h
    have e : (buildLink n).Href = "" := by
      simp only [buildLink, find_href_none n.Attr h]
    refine ⟨e, fun base => ?_⟩
    have e2 : getHrefsLoop base [buildLink n] = [] := by
      rw [getHrefsLoop_cons, getHrefsLoop_nil, List.append_nil]
      unfold hrefStep
      rw [e]
      rfl
    rw [e2]
    exact ⟨rfl, rfl⟩

/-- C17 on two anchors: one whose first `href` is `/first` (a second one
follows), one without `href`. -/
theorem buildLink_href_witness :
    (buildLink twoHrefAnchor).Href = "/first" ∧
    ((buildLink noHrefAnchor).Href = "" ∧
      ∀ base, getHrefsLoop base [buildLink noHrefAnchor] = [] ∧
        filter (withPrefix base) (getHrefsLoop base [buildLink noHrefAnchor]) = []) :=
  ⟨(buildLink_href twoHrefAnchor).1 [⟨"", "class", "nav"⟩] ⟨"", "href", "/first"⟩
      [⟨"", "href", "/second"⟩] rfl rfl (by decide),
    (buildLink_href noHrefAnchor).2 (by decide)⟩

/-! ## The walker: failure -/

theorem gather_eq_none_iff (gl : String → Option (List String)) (a : List String) :
    gather gl a = none ↔ ∃ u ∈ a, gl u = none := by
  induction a with
  | nil => simp [gather]
  | cons x xs ih =>
    cases hx : gl x with
    | none =>
      simp only [gather, hx, true_iff]
      exact ⟨x, List.mem_cons_self x xs, hx⟩
    | some ls =>
      simp only [gather, hx, Option.map_eq_none', ih, List.mem_cons]
      constructor
      · rintro ⟨u, hu, h⟩
        exact ⟨u, Or.inr hu, h⟩
      · rintro ⟨u, rfl | hu, h⟩
        · rw [hx] at h
          cases h
        · exact ⟨u, hu, h⟩

theorem level_eq_none_iff (gl : String → Option (List String)) (w : Walk) :
    level gl w = none ↔ ∃ u ∈ w.currentList, gl u = none := by
  rw [level_eq_gather, Option.map_eq_none', gather_eq_none_iff]

theorem levels_eq_none_iff (gl : String → Option (List String)) (n : Nat) (w : Walk) :
    levels gl n w = none ↔
      ∃ i w', i < n ∧ levels gl i w = some w' ∧ level gl w' = none := by
  induction n generalizing w with
  | zero => simp [levels_zero]
  | succ n ih =>
    rw [levels_succ]
    cases hl : level gl w with
    | none =>
      simp only [Option.none_bind, true_iff]
      exact ⟨0, w, Nat.succ_pos n, rfl, hl⟩
    | some w1 =>
      simp only [Option.some_bind, ih]
      constructor
      · rintro ⟨i, w', hi, h1, h2⟩
        refine ⟨i + 1, w', Nat.succ_lt_succ hi, ?_, h2⟩
        rw [levels_succ, hl]
        exact h1
      · rintro ⟨i, w', hi, h1, h2⟩
        cases i with
        | zero =>
          rw [levels_zero] at h1
          cases h1
          rw [hl] at h2
          cases h2
        | succ i =>
          rw [levels_succ, hl] at h1
          exact ⟨i, w', Nat.lt_of_succ_lt_succ hi, h1, h2⟩

theorem getLinks_eq_none_iff (httpGet : String → Except String Response)
    (htmlParse : String → Except String Node) (u : String) :
    getLinks httpGet htmlParse u = none ↔ ∃ err, httpGet u = .error err := by
  unfold getLinks
  cases h : httpGet u with
  | error e => simp
  | ok resp => simp

/-- C15: the crawl fails, returning no list at all, exactly when some round
`i` with `0 ≤ i ≤ depth` is reached and the transport reports an error for a
URL of that round's frontier.  On the example site the pages behind the root
cannot be fetched: depth 0 returns a list and depth 1 fails. -/
theorem TraversWebPage_fails_iff (httpGet : String → Except String Response)
    (htmlParse : String → Except String Node) (rootUrl : String) (depth : Int) :
    (TraversWebPage (getLinks httpGet htmlParse) rootUrl depth = none ↔
      ∃ (i : Nat) (w : Walk) (u : String), (i : Int) ≤ depth ∧
        levels (getLinks httpGet htmlParse) i (initWalk rootUrl) = some w ∧
        u ∈ w.currentList ∧ ∃ err, httpGet u = .error err) ∧
    TraversWebPage (getLinks exampleGet exampleParse) "http://example.com" 0
      = some ["http://example.com/a"] ∧
    TraversWebPage (getLinks exampleGet exampleParse) "http://example.com" 1 = none := by
  refine ⟨?_, by decide, by decide⟩
  unfold TraversWebPage walk
  rw [Option.map_eq_none', levels_eq_none_iff]
  constructor
  · rintro ⟨i, w, hi, h1, h2⟩
    obtain ⟨u, hu, hf⟩ := (level_eq_none_iff _ w).1 h2
    exact ⟨i, w, u, by omega, h1, hu, (getLinks_eq_none_iff httpGet htmlParse u).1 hf⟩
  · rintro ⟨i, w, u, hi, h1, hu, hf⟩
    exact ⟨i, w, by omega, h1,
      (level_eq_none_iff _ w).2 ⟨u, hu, (getLinks_eq_none_iff httpGet htmlParse u).2 hf⟩⟩

/-! ## The walker: parse errors -/

theorem Parse_error_iff (htmlParse : String → Except String Node) (r : String) (e : String) :
    Parse htmlParse r = .error e ↔ htmlParse r = .error e := by
  unfold Parse
  cases h : htmlParse r with
  | error e' => simp
  | ok doc => simp

theorem getHrefs_absorbErrors (htmlParse : String → Except String Node) (r base : String) :
    getHrefs (absorbErrors htmlParse) r base = getHrefs htmlParse r base := by
  unfold getHrefs Parse absorbErrors
  cases h : htmlParse r with
  | error e => rfl
  | ok doc => rfl

theorem getLinks_absorbErrors (httpGet : String → Except String Response)
    (htmlParse : String → Except String Node) :
    getLinks httpGet (absorbErrors htmlParse) = getLinks httpGet htmlParse := by
  funext u
  unfold getLinks
  cases h : httpGet u with
  | error e => rfl
  | ok resp => simp only [getHrefs_absorbErrors]

/-- C18: when `Parse` returns an error, `getHrefs` returns the empty list for
that page, whatever the base, and `getLinks` returns the empty list instead of
failing; the whole crawl is the crawl one gets when each unparsable page is
read as a document without links. -/
theorem parse_error_absorbed (httpGet : String → Except String Response)
    (htmlParse : String → Except String Node) (u : String) (resp : Response) (e : String)
    (hget : httpGet u = .ok resp) (hp : Parse htmlParse resp.Body = .error e) :
    (∀ base, getHrefs htmlParse resp.Body base = []) ∧
    getLinks httpGet htmlParse u = some [] ∧
    ∀ rootUrl depth, TraversWebPage (getLinks httpGet htmlParse) rootUrl depth
      = TraversWebPage (getLinks httpGet (absorbErrors htmlParse)) rootUrl depth := by
  have h1 : ∀ base, getHrefs htmlParse resp.Body base = [] := by
    intro base
    simp [getHrefs, hp, getHrefsLoop]
  refine ⟨h1, ?_, ?_⟩
  · simp [getLinks, hget, h1, filter]
  · intro rootUrl depth
    rw [getLinks_absorbErrors]

/-- C18 on a page whose body cannot be parsed: the crawl of the root returns
the empty list. -/
theorem parse_error_absorbed_witness :
    ((∀ base, getHrefs brokenParse "broken" base = []) ∧
      getLinks brokenGet brokenParse "http://example.com" = some [] ∧
      ∀ rootUrl depth, TraversWebPage (getLinks brokenGet brokenParse) rootUrl depth
        = TraversWebPage (getLinks brokenGet (absorbErrors brokenParse)) rootUrl depth) ∧
    TraversWebPage (getLinks brokenGet brokenParse) "http://example.com" 2 = some [] :=
  ⟨parse_error_absorbed brokenGet brokenParse "http://example.com"
      ⟨"http", "example.com", "broken"⟩ "unexpected EOF" rfl rfl,
    by decide⟩

/-! ## The walker: the root, negative depths -/

theorem forLoop_eq_levels (gl : String → Option (List String)) (depth : Int) (n : Nat) :
    ∀ (i : Int) (w : Walk), (depth + 1 - i).toNat = n →
      forLoop gl depth i w = levels gl n w := by
  induction n with
  | zero =>
    intro i w h
    rw [forLoop, dif_neg (by omega), levels_zero]
  | succ n ih =>
    intro i w h
    rw [forLoop, dif_pos (by omega), levels_succ]
    cases hl : level gl w with
    | none => rfl
    | some w' =>
      simp only [Option.some_bind]
      exact ih (i + 1) w' (by omega)

/-- C20: for a negative depth the crawl fetches nothing and returns the empty
list.  The loop `for i := 0; i <= depth; i++` runs `max(0, depth + 1)` rounds. -/
theorem TraversWebPage_negative_depth (gl : String → Option (List String))
    (rootUrl : String) (depth : Int) :
    (depth < 0 → TraversWebPage gl rootUrl depth = some [] ∧
      fetchedPages gl rootUrl depth = some []) ∧
    walk gl rootUrl depth = forLoop gl depth 0 (initWalk rootUrl) ∧
    forLoop gl depth 0 (initWalk rootUrl)
      = levels gl (max 0 (depth + 1)).toNat (initWalk rootUrl) := by
  have e : (max 0 (depth + 1)).toNat = (depth + 1).toNat := by omega
  refine ⟨?_, ?_, ?_⟩
  · intro h
    have e0 : (depth + 1).toNat = 0 := by omega
    simp [TraversWebPage, fetchedPages, walk, e0, levels_zero, initWalk]
  · unfold walk
    exact (forLoop_eq_levels gl depth _ 0 (initWalk rootUrl) (by simp)).symm
  · rw [e]
    exact forLoop_eq_levels gl depth _ 0 (initWalk rootUrl) (by simp)

/-- C20 at depth `-1` with a transport that fails on every URL: no fetch is
made, so the crawl still returns the empty list. -/
theorem TraversWebPage_negative_depth_witness :
    TraversWebPage (fun _ => none) "http://example.com" (-1) = some [] ∧
    fetchedPages (fun _ => none) "http://example.com" (-1) = some [] :=
  (TraversWebPage_negative_depth (fun _ => none) "http://example.com" (-1)).1 (by decide)

/-! ## Link extraction: `dfs` -/

mutual
theorem preorder_under (path : List Nat) :
    ∀ (n : Node), ∀ p ∈ preorder true path n, p.underAnchor = true
  | .mk ty data attr cs => by
    intro p hp
    simp only [preorder, Bool.true_or, List.mem_cons] at hp
    rcases hp with rfl | hp
    · rfl
    · exact preorderList_under path 0 cs p hp
theorem preorderList_under (path : List Nat) (i : Nat) :
    ∀ (cs : List Node), ∀ p ∈ preorderList true path i cs, p.underAnchor = true
  | [] => by
    intro p hp
    simp [preorderList] at hp
  | c :: rest => by
    intro p hp
    simp only [preorderList, List.mem_append] at hp
    rcases hp with hp | hp
    · exact preorder_under (path ++ [i]) c p hp
    · exact preorderList_under path (i + 1) rest p hp
end

theorem filter_outer_under (path : List Nat) (n : Node) :
    (preorder true path n).filter (fun p => isAnchor p.node && !p.underAnchor) = [] := by
  rw [List.filter_eq_nil_iff]
  intro p hp
  simp [preorder_under path n p hp]

theorem filter_outer_under_list (path : List Nat) (i : Nat) (cs : List Node) :
    (preorderList true path i cs).filter (fun p => isAnchor p.node && !p.underAnchor) = [] := by
  rw [List.filter_eq_nil_iff]
  intro p hp
  simp [preorderList_under path i cs p hp]

mutual
theorem dfs_eq_preorder (path : List Nat) :
    ∀ (n : Node), dfs n
      = ((preorder false path n).filter
          (fun p => isAnchor p.node && !p.underAnchor)).map Position.node
  | .mk ty data attr cs => by
    by_cases h : ty = NodeType.ElementNode ∧ data = "a"
    · obtain ⟨rfl, rfl⟩ := h
      have ha : isAnchor (.mk NodeType.ElementNode "a" attr cs) = true := by simp [isAnchor]
      simp only [dfs, and_self, if_true, preorder, ha, Bool.or_true, List.filter_cons,
        Bool.not_false, Bool.and_true, filter_outer_under_list, List.map_cons, List.map_nil]
    · have ha : isAnchor (.mk ty data attr cs) = false := by simp [isAnchor, h]
      have hl := dfsLoop_eq_preorderList path 0 cs []
      simp only [dfs, h, if_false, preorder, ha, Bool.or_false, List.filter_cons,
        Bool.false_and, Bool.false_eq_true]
      rw [hl]
      rfl
theorem dfsLoop_eq_preorderList (path : List Nat) (i : Nat) :
    ∀ (cs : List Node) (acc : List Node), dfsLoop cs acc
      = acc ++ ((preorderList false path i cs).filter
          (fun p => isAnchor p.node && !p.underAnchor)).map Position.node
  | [], acc => by simp [dfsLoop, preorderList]
  | c :: rest, acc => by
    simp only [dfsLoop, preorderList, List.filter_append, List.map_append]
    rw [dfsLoop_eq_preorderList path (i + 1) rest (acc ++ dfs c),
      dfs_eq_preorder (path ++ [i]) c, List.append_assoc]
end

mutual
theorem preorder_path (above : Bool) (path : List Nat) :
    ∀ (n : Node), ∀ p ∈ preorder above path n, path <+: p.path
  | .mk ty data attr cs => by
    intro p hp
    simp only [preorder, List.mem_cons] at hp
    rcases hp with rfl | hp
    · exact List.prefix_refl _
    · obtain ⟨j, -, hj⟩ := preorderList_path _ path 0 cs p hp
      exact List.IsPrefix.trans (List.prefix_append path [j]) hj
theorem preorderList_path (above : Bool) (path : List Nat) (i : Nat) :
    ∀ (cs : List Node), ∀ p ∈ preorderList above path i cs,
      ∃ j, i ≤ j ∧ path ++ [j] <+: p.path
  | [] => by
    intro p hp
    simp [preorderList] at hp
  | c :: rest => by
    intro p hp
    simp only [preorderList, List.mem_append] at hp
    rcases hp with hp | hp
    · exact ⟨i, le_refl i, preorder_path above (path ++ [i]) c p hp⟩
    · obtain ⟨j, hj, h⟩ := preorderList_path above path (i + 1) rest p hp
      exact ⟨j, by omega, h⟩
end

theorem child_index_unique (path q : List Nat) (i j : Nat)
    (hi : path ++ [i] <+: q) (hj : path ++ [j] <+: q) : i = j := by
  have h := List.prefix_of_prefix_length_le hi hj (by simp)
  have e := h.eq_of_length (by simp)
  simpa using e

theorem not_prefix_snoc (path : List Nat) (j : Nat) (q : List Nat)
    (h1 : path ++ [j] <+: q) (h2 : q <+: path) : False := by
  have := (List.IsPrefix.trans h1 h2).length_le
  simp at this

mutual
theorem nested_under (above : Bool) (path : List Nat) :
    ∀ (n : Node), ∀ p ∈ preorder above path n, ∀ q ∈ preorder above path n,
      (isAnchor p.node && !p.underAnchor) = true → p.path <+: q.path → p.path ≠ q.path →
      q.underAnchor = true
  | .mk ty data attr cs => by
    intro p hp q hq hk hpre hne
    simp only [preorder, List.mem_cons] at hp hq
    rcases hp with rfl | hp
    · rcases hq with rfl | hq
      · exact absurd rfl hne
      · simp only [Bool.and_eq_true, Bool.not_eq_true'] at hk
        rw [hk.1, hk.2] at hq
        exact preorderList_under path 0 cs q hq
    · rcases hq with rfl | hq
      · obtain ⟨j, -, hj⟩ := preorderList_path _ path 0 cs p hp
        exact absurd hpre (fun h => not_prefix_snoc path j _ hj h)
      · exact nested_under_list _ path 0 cs p hp q hq hk hpre hne
theorem nested_under_list (above : Bool) (path : List Nat) (i : Nat) :
    ∀ (cs : List Node), ∀ p ∈ preorderList above path i cs,
      ∀ q ∈ preorderList above path i cs,
      (isAnchor p.node && !p.underAnchor) = true → p.path <+: q.path → p.path ≠ q.path →
      q.underAnchor = true
  | [] => by
    intro p hp
    simp [preorderList] at hp
  | c :: rest => by
    intro p hp q hq hk hpre hne
    simp only [preorderList, List.mem_append] at hp hq
    rcases hp with hp | hp
    · rcases hq with hq | hq
      · exact nested_under above (path ++ [i]) c p hp q hq hk hpre hne
      · have h1 := preorder_path above (path ++ [i]) c p hp
        obtain ⟨j, hj, h2⟩ := preorderList_path above path (i + 1) rest q hq
        have := child_index_unique path q.path i j (List.IsPrefix.trans h1 hpre) h2
        omega
    · rcases hq with hq | hq
      · obtain ⟨j, hj, h1⟩ := preorderList_path above path (i + 1) rest p hp
        have h2 := preorder_path above (path ++ [i]) c q hq
        have := child_index_unique path q.path j i (List.IsPrefix.trans h1 hpre) h2
        omega
      · exact nested_under_list above path (i + 1) rest p hp q hq hk hpre hne
end

mutual
theorem preorder_nodeAt (above : Bool) (path : List Nat) :
    ∀ (n : Node), ∀ p ∈ preorder above path n,
      ∃ s, p.path = path ++ s ∧ nodeAt n s = some p.node
  | .mk ty data attr cs => by
    intro p hp
    simp only [preorder, List.mem_cons] at hp
    rcases hp with rfl | hp
    · exact ⟨[], by simp, rfl⟩
    · obtain ⟨j, s, c, h1, h2, h3⟩ := preorderList_nodeAt _ path 0 cs p hp
      refine ⟨j :: s, by simpa using h1, ?_⟩
      simp only [nodeAt, h2]
      exact h3
theorem preorderList_nodeAt (above : Bool) (path : List Nat) (i : Nat) :
    ∀ (cs : List Node), ∀ p ∈ preorderList above path i cs,
      ∃ j s c, p.path = path ++ (i + j) :: s ∧ cs.get? j = some c ∧ nodeAt c s = some p.node
  | [] => by
    intro p hp
    simp [preorderList] at hp
  | c :: rest => by
    intro p hp
    simp only [preorderList, List.mem_append] at hp
    rcases hp with hp | hp
    · obtain ⟨s, h1, h2⟩ := preorder_nodeAt above (path ++ [i]) c p hp
      exact ⟨0, s, c, by simpa using h1, rfl, h2⟩
    · obtain ⟨j, s, c', h1, h2, h3⟩ := preorderList_nodeAt above path (i + 1) rest p hp
      refine ⟨j + 1, s, c', ?_, by simpa using h2, h3⟩
      rw [h1]
      congr 2
      omega
end

/-- C12: `dfs` returns, in document order, exactly the `a` elements that have
no `a` element among their proper ancestors.  Every returned node is an `a`
element; no returned position lies below another returned position; and the
result is empty when the tree holds no `a` element. -/
theorem dfs_outermost_anchors (doc : Node) :
    dfs doc = (outermostAnchors doc).map Position.node ∧
    (∀ p ∈ outermostAnchors doc, nodeAt doc p.path = some p.node) ∧
    (∀ n ∈ dfs doc, isAnchor n = true) ∧
    (∀ p ∈ outermostAnchors doc, ∀ q ∈ outermostAnchors doc,
      p.path <+: q.path → p.path = q.path) ∧
    ((∀ p ∈ preorder false [] doc, isAnchor p.node = false) → dfs doc = []) := by
  have hdfs : dfs doc = (outermostAnchors doc).map Position.node := dfs_eq_preorder [] doc
  refine ⟨hdfs, ?_, ?_, ?_, ?_⟩
  · intro p hp
    obtain ⟨s, h1, h2⟩ := preorder_nodeAt false [] doc p (List.mem_filter.1 hp).1
    rw [h1]
    simpa using h2
  · intro n hn
    rw [hdfs, List.mem_map] at hn
    obtain ⟨p, hp, rfl⟩ := hn
    have := (List.mem_filter.1 hp).2
    simp only [Bool.and_eq_true] at this
    exact this.1
  · intro p hp q hq hpre
    by_contra hne
    have hp' := List.mem_filter.1 hp
    have hq' := List.mem_filter.1 hq
    have := nested_under false [] doc p hp'.1 q hq'.1 hp'.2 hpre hne
    have hk := hq'.2
    simp [this] at hk
  · intro h
    rw [hdfs]
    unfold outermostAnchors
    rw [List.filter_eq_nil_iff.2, List.map_nil]
    intro p hp
    simp [h p hp]

/-- C12 on the document `nestedAnchors`: the outer anchor and the later
anchor are returned, the anchor nested in the outer one is not. -/
theorem dfs_outermost_anchors_witness :
    (dfs nestedAnchors).map (fun n => (buildLink n).Href) = ["/outer", "/inner"] ∧
    (outermostAnchors nestedAnchors).map Position.path = [[0, 0], [0, 1, 0]] ∧
    (dfs examplePage).length = 3 ∧
    dfs (Node.mk NodeType.ElementNode "p" [] [Node.mk NodeType.TextNode "a" [] []]) = [] := by
  refine ⟨by decide, by decide, by decide, ?_⟩
  exact (dfs_outermost_anchors _).2.2.2.2 (by decide)

/-! ## `strings.Fields` and `strings.Join` -/

theorem isSpace_space : isSpace ' ' = true := by decide

theorem fieldsLoop_nil (cur : List Char) :
    fieldsLoop [] cur = if cur.isEmpty then [] else [String.mk cur] := by
  simp [fieldsLoop]

theorem fieldsLoop_space_split (xs ys cur : List Char) :
    fieldsLoop (xs ++ ' ' :: ys) cur = fieldsLoop xs cur ++ fieldsLoop ys [] := by
  induction xs generalizing cur with
  | nil =>
    simp only [List.nil_append, fieldsLoop, isSpace_space, if_true]
    by_cases h : cur.isEmpty = true
    · simp [h]
    · simp [h]
  | cons c cs ih =>
    simp only [List.cons_append, fieldsLoop]
    by_cases hc : isSpace c = true
    · simp only [hc, if_true]
      by_cases h : cur.isEmpty = true
      · simp only [h, if_true]
        exact ih []
      · simp only [h, if_false, Bool.false_eq_true]
        have := ih []
        simp only [List.cons_append, List.cons.injEq, true_and]
        exact this
    · simp only [hc, if_false, Bool.false_eq_true]
      exact ih (cur ++ [c])

theorem fieldsLoop_words (xs cur : List Char) (hcur : ∀ c ∈ cur, isSpace c = false) :
    ∀ w ∈ fieldsLoop xs cur, IsWord w := by
  induction xs generalizing cur with
  | nil =>
    intro w hw
    rw [fieldsLoop_nil] at hw
    by_cases h : cur.isEmpty = true
    · simp [h] at hw
    · simp only [h, if_false, Bool.false_eq_true, List.mem_singleton] at hw
      subst hw
      exact ⟨by simpa using h, hcur⟩
  | cons c cs ih =>
    intro w hw
    simp only [fieldsLoop] at hw
    by_cases hc : isSpace c = true
    · simp only [hc, if_true] at hw
      by_cases h : cur.isEmpty = true
      · simp only [h, if_true] at hw
        exact ih [] (by simp) w hw
      · simp only [h, if_false, Bool.false_eq_true, List.mem_cons] at hw
        rcases hw with rfl | hw
        · exact ⟨by simpa using h, hcur⟩
        · exact ih [] (by simp) w hw
    · simp only [hc, if_false, Bool.false_eq_true] at hw
      refine ih (cur ++ [c]) ?_ w hw
      intro d hd
      rcases List.mem_append.1 hd with hd | hd
      · exact hcur d hd
      · rw [List.mem_singleton] at hd
        subst hd
        simpa using hc

theorem fieldsLoop_of_no_space (xs cur : List Char) (h : ∀ c ∈ xs, isSpace c = false) :
    fieldsLoop xs cur = if (cur ++ xs).isEmpty then [] else [String.mk (cur ++ xs)] := by
  induction xs generalizing cur with
  | nil => simp [fieldsLoop]
  | cons c cs ih =>
    have hc : isSpace c = false := h c (List.mem_cons_self c cs)
    simp only [fieldsLoop, hc, Bool.false_eq_true, if_false]
    rw [ih (cur ++ [c]) (fun d hd => h d (List.mem_cons_of_mem c hd))]
    simp

theorem Fields_words (s : String) : ∀ w ∈ Fields s, IsWord w :=
  fieldsLoop_words s.data [] (by simp)

theorem Fields_of_word (w : String) (h : IsWord w) : Fields w = [w] := by
  unfold Fields
  rw [fieldsLoop_of_no_space w.data [] h.2]
  have : w.data.isEmpty = false := by
    cases hd : w.data with
    | nil => exact absurd hd h.1
    | cons a t => rfl
  simp [this]

theorem Fields_empty : Fields "" = [] := rfl

theorem Fields_append_space (x y : String) :
    Fields (x ++ " " ++ y) = Fields x ++ Fields y := by
  unfold Fields
  have e : (x ++ " " ++ y).data = x.data ++ ' ' :: y.data := by
    simp [String.data_append]
  rw [e, fieldsLoop_space_split]

theorem Join_cons_cons (a b : String) (rest : List String) (sep : String) :
    Join (a :: b :: rest) sep = a ++ sep ++ Join (b :: rest) sep := rfl

theorem Fields_Join (l : List String) : Fields (Join l " ") = l.flatMap Fields := by
  induction l with
  | nil => rfl
  | cons a t ih =>
    cases t with
    | nil => simp [Join]
    | cons b rest =>
      rw [Join_cons_cons, Fields_append_space, ih, List.flatMap_cons a (b :: rest)]

theorem Fields_Join_words (ws : List String) (h : ∀ w ∈ ws, IsWord w) :
    Fields (Join ws " ") = ws := by
  rw [Fields_Join]
  induction ws with
  | nil => rfl
  | cons a t ih =>
    rw [List.flatMap_cons, Fields_of_word a (h a (List.mem_cons_self a t)),
      ih (fun w hw => h w (List.mem_cons_of_mem a hw))]
    rfl

theorem chain_of_no_space (l : List Char) (h : ∀ c ∈ l, isSpace c = false) :
    List.Chain' (fun a b => ¬ (isSpace a = true ∧ isSpace b = true)) l := by
  induction l with
  | nil => exact List.chain'_nil
  | cons a t ih =>
    rw [List.chain'_cons']
    refine ⟨?_, ih (fun c hc => h c (List.mem_cons_of_mem a hc))⟩
    intro y _ hy
    have := h a (List.mem_cons_self a t)
    rw [this] at hy
    exact absurd hy.1 (by simp)

theorem Join_words_shape (ws : List String) (h : ∀ w ∈ ws, IsWord w) :
    (ws ≠ [] → (Join ws " ").data ≠ []) ∧ NoEdgeSpace (Join ws " ") ∧
      NoDoubleSpace (Join ws " ") := by
  induction ws with
  | nil =>
    refine ⟨fun h0 => absurd rfl h0, ⟨?_, ?_⟩, ?_⟩
    · intro c hc
      simp [Join] at hc
    · intro c hc
      simp [Join] at hc
    · exact List.chain'_nil
  | cons a t ih =>
    have ha : IsWord a := h a (List.mem_cons_self a t)
    cases t with
    | nil =>
      refine ⟨fun _ => ha.1, ⟨?_, ?_⟩, chain_of_no_space _ ha.2⟩
      · intro c hc
        exact ha.2 c (List.mem_of_mem_head? hc)
      · intro c hc
        exact ha.2 c (List.mem_of_mem_getLast? hc)
    | cons b rest =>
      obtain ⟨hne, ⟨hhead, hlast⟩, hchain⟩ := ih (fun w hw => h w (List.mem_cons_of_mem a hw))
      have hne' : (Join (b :: rest) " ").data ≠ [] := hne (by simp)
      have e : (Join (a :: b :: rest) " ").data
          = a.data ++ (' ' :: (Join (b :: rest) " ").data) := by
        rw [Join_cons_cons]
        simp [String.data_append]
      refine ⟨fun _ => ?_, ⟨?_, ?_⟩, ?_⟩
      · rw [e]
        simp [ha.1]
      · intro c hc
        rw [e, List.head?_append_of_ne_nil _ ha.1] at hc
        exact ha.2 c (List.mem_of_mem_head? hc)
      · intro c hc
        rw [e, List.getLast?_append_of_ne_nil _ (by simp), List.getLast?_cons] at hc
        cases hl : (Join (b :: rest) " ").data.getLast? with
        | none => exact absurd (List.getLast?_eq_none_iff.1 hl) hne'
        | some d =>
          rw [hl] at hc
          simp only [Option.getD_some, Option.some.injEq] at hc
          subst hc
          exact hlast d hl
      · unfold NoDoubleSpace
        rw [e]
        refine List.Chain'.append (chain_of_no_space _ ha.2) ?_ ?_
        · rw [List.chain'_cons']
          refine ⟨?_, hchain⟩
          intro y hy hboth
          have := hhead y hy
          rw [this] at hboth
          exact absurd hboth.2 (by simp)
        · intro x hx y hy hboth
          have := ha.2 x (List.mem_of_mem_getLast? hx)
          rw [this] at hboth
          exact absurd hboth.1 (by simp)

/-! ## Link extraction: `text` -/

theorem textLoop_acc (cs : List Node) (acc : String) :
    textLoop cs acc = acc ++ textLoop cs "" := by
  induction cs generalizing acc with
  | nil => simp [textLoop, String.append_empty]
  | cons c rest ih =>
    simp only [textLoop]
    rw [ih (acc ++ (text c ++ " ")), ih ("" ++ (text c ++ " ")), String.empty_append,
      String.append_assoc]

theorem Fields_textLoop_cons (c : Node) (rest : List Node) :
    Fields (textLoop (c :: rest) "") = Fields (text c) ++ Fields (textLoop rest "") := by
  simp only [textLoop]
  rw [textLoop_acc, String.empty_append, Fields_append_space]

mutual
theorem Fields_text (n : Node) (h : onlyElementsBranch n = true) :
    Fields (text n) = (textContents n).flatMap Fields :=
  match n, h with
  | .mk ty data attr cs, h => by
    simp only [onlyElementsBranch, Bool.and_eq_true, Bool.or_eq_true, decide_eq_true_eq] at h
    obtain ⟨hshape, hcs⟩ := h
    by_cases ht : ty = NodeType.TextNode
    · subst ht
      have hnil : cs = [] := by
        rcases hshape with h1 | h1
        · simpa using h1
        · cases h1
      subst hnil
      simp [text, textContents, textContentsList]
    · by_cases he : ty = NodeType.ElementNode
      · subst he
        simp only [text, textContents, if_true, if_false, ne_eq, not_true_eq_false,
          List.nil_append, reduceCtorEq]
        rw [Fields_Join_words _ (Fields_words _)]
        exact Fields_textLoop cs hcs
      · have hnil : cs = [] := by
          rcases hshape with h1 | h1
          · simpa using h1
          · exact absurd h1 he
        subst hnil
        simp [text, textContents, textContentsList, ht, he, Fields_empty]
theorem Fields_textLoop (cs : List Node) (h : onlyElementsBranchList cs = true) :
    Fields (textLoop cs "") = (textContentsList cs).flatMap Fields :=
  match cs, h with
  | [], _ => rfl
  | c :: rest, h => by
    simp only [onlyElementsBranchList, Bool.and_eq_true] at h
    rw [Fields_textLoop_cons, Fields_text c h.1, Fields_textLoop rest h.2]
    simp only [textContentsList, List.flatMap_append]
end

/-- C13: for an element node (of a tree in which only element nodes have
children), `text` is the list of white-space separated words of the text-node
contents below it, taken in document order with a space between fragments,
joined by single spaces; so it neither starts nor ends with white space and
has no two white-space characters in a row. -/
theorem text_flattens (data : String) (attr : List Attribute) (cs : List Node)
    (h : onlyElementsBranch (Node.mk NodeType.ElementNode data attr cs) = true) :
    text (Node.mk NodeType.ElementNode data attr cs)
      = Join (Fields (Join (textContents (Node.mk NodeType.ElementNode data attr cs)) " ")) " " ∧
    NoEdgeSpace (text (Node.mk NodeType.ElementNode data attr cs)) ∧
    NoDoubleSpace (text (Node.mk NodeType.ElementNode data attr cs)) := by
  have hcs : onlyElementsBranchList cs = true := by
    simp only [onlyElementsBranch, Bool.and_eq_true] at h
    exact h.2
  have e : text (Node.mk NodeType.ElementNode data attr cs)
      = Join (Fields (textLoop cs "")) " " := by
    simp [text]
  have hshape := Join_words_shape (Fields (textLoop cs "")) (Fields_words _)
  refine ⟨?_, ?_, ?_⟩
  · rw [e, Fields_Join, Fields_textLoop cs hcs]
    simp [textContents]
  · rw [e]
    exact hshape.2.1
  · rw [e]
    exact hshape.2.2

/-- C13 on two anchors: the text `"  Go   Home \n"` gives `Go Home`, and
`<a>Read<b> the  </b><!-- x -->docs </a>` gives `Read the docs`. -/
theorem text_flattens_witness :
    text goHomeAnchor = "Go Home" ∧ text mixedAnchor = "Read the docs" ∧
    (text mixedAnchor
        = Join (Fields (Join (textContents mixedAnchor) " ")) " " ∧
      NoEdgeSpace (text mixedAnchor) ∧ NoDoubleSpace (text mixedAnchor)) :=
  ⟨by decide, by decide,
    text_flattens "a" []
      [.mk .TextNode "Read" [] [], .mk .ElementNode "b" [] [.mk .TextNode " the  " [] []],
        .mk .CommentNode " x " [] [], .mk .TextNode "docs " [] []] (by decide)⟩

end SiteMap
